import Mathlib

/-!
Verification development for the `@volar/language-core` synchronization core
(`src/packages/language-core/src/languageContext.ts` and
`src/packages/language-core/src/documentRegistry.ts`).

The TypeScript code is shallowly embedded: JavaScript `Map` / `Record`
state becomes association lists over `String` keys, JS `Set`s become
duplicate-free lists kept in insertion order, fallible module calls
(`createSourceFile` may throw) become `Except Unit` values, and the
adapter's closure state becomes an explicit `AdapterState` record threaded
through `update` and the query functions.
-/

namespace Volar

/-- One character of `fileName.replace(/\\/g, '/').toLowerCase()`: the global
single-character replacement followed by lowercasing acts independently on
each character. -/
def normChar (c : Char) : Char :=
  if c = '\\' then '/' else c.toLower

/-- documentRegistry.ts line 89: `fileName.replace(/\\/g, '/').toLowerCase()`,
rendered characterwise. -/
def normalizePath (fileName : String) : String :=
  (fileName.toList.map normChar).asString

/-- `String.prototype.toLowerCase` (used as the snapshot-cache key in
languageContext.ts line 282), rendered characterwise. -/
def toLowerStr (fileName : String) : String :=
  (fileName.toList.map Char.toLower).asString

/-! ### Association lists (JS `Map` / plain `Record` objects, string keys) -/

/-- Lookup in an association list; `none` plays the role of JS `undefined`. -/
def alistGet {α : Type} : List (String × α) → String → Option α
  | [], _ => none
  | (k', v) :: rest, k => if k' = k then some v else alistGet rest k

/-- `map.set(k, v)` / `record[k] = v`: overwrite the existing binding in place,
otherwise append a new one (JS insertion order). -/
def alistSet {α : Type} : List (String × α) → String → α → List (String × α)
  | [], k, v => [(k, v)]
  | (k', v') :: rest, k, v =>
    if k' = k then (k, v) :: rest else (k', v') :: alistSet rest k v

/-- `map.delete(k)` / `delete record[k]`. -/
def alistDelete {α : Type} : List (String × α) → String → List (String × α)
  | [], _ => []
  | (k', v) :: rest, k =>
    if k' = k then alistDelete rest k else (k', v) :: alistDelete rest k

/-- Delete a whole list of keys in order. -/
def alistDeleteAll {α : Type} : List (String × α) → List String → List (String × α)
  | l, [] => l
  | l, n :: ns => alistDeleteAll (alistDelete l n) ns

/-- The keys of an association list are pairwise distinct (true of every JS
`Map`/`Record`, whose keys are necessarily unique). -/
def alistKeysNodup {α : Type} (l : List (String × α)) : Prop :=
  (l.map Prod.fst).Nodup

/-! ### JS Sets as duplicate-free lists in insertion order -/

/-- `new Set(xs)`: keep the first occurrence of each element. -/
def jsSetOf : List String → List String
  | [] => []
  | x :: xs => x :: (jsSetOf xs).filter (fun y => y ≠ x)

/-- `set.delete(x)`. -/
def setDelete : List String → String → List String
  | [], _ => []
  | x :: rest, k => if x = k then setDelete rest k else x :: setDelete rest k

/-! ### Data model

`types.ts` is not part of the provided sources; the `EmbeddedFile` shape and
the `EmbeddedFileKind` enum are modelled from the spec (§3): a kind tag
distinguishes host-visible files from internal text files. The enum's numeric
values are `TextFile = 0` (falsy in JS) and `TypeScriptHostFile = 1`
(truthy), which is what makes `if (embedded.kind)` in languageContext.ts
line 212 select exactly the host-visible files that
`getScriptFileNames` (line 248) exposes. -/

/-- Modelled from the spec: the kind tag of an embedded file (types.ts is not
in the provided sources). `TextFile` has numeric value 0, `TypeScriptHostFile`
numeric value 1. -/
inductive EmbeddedFileKind where
  | TextFile
  | TypeScriptHostFile
deriving DecidableEq

/-- JS truthiness of the numeric kind value (`if (embedded.kind)`). -/
def EmbeddedFileKind.isTruthy : EmbeddedFileKind → Bool
  | .TextFile => false
  | .TypeScriptHostFile => true

/-- Modelled from the spec: one node of the virtual-file tree rooted at a
composite document (types.ts is not in the provided sources). The mapping
tables carried by a node are not needed by the adapter algorithm and are
modelled separately (see `MappingCache`). A `SourceFile` is the root node of
such a tree, which is why `forEachEmbeddeds` can be applied to it directly. -/
inductive EmbeddedFile where
  | mk (fileName : String) (text : String) (kind : EmbeddedFileKind)
       (embeddeds : List EmbeddedFile)

def EmbeddedFile.fileName : EmbeddedFile → String
  | .mk n _ _ _ => n

def EmbeddedFile.text : EmbeddedFile → String
  | .mk _ t _ _ => t

def EmbeddedFile.kind : EmbeddedFile → EmbeddedFileKind
  | .mk _ _ k _ => k

def EmbeddedFile.embeddeds : EmbeddedFile → List EmbeddedFile
  | .mk _ _ _ es => es

mutual
/-- documentRegistry.ts lines 6-11: visit a file and all of its embedded
descendants; the returned list is the callback order (`cb(file)` first,
then each child subtree in order). -/
def forEachEmbeddeds : EmbeddedFile → List EmbeddedFile
  | .mk n t k es => .mk n t k es :: forEachEmbeddedsList es

def forEachEmbeddedsList : List EmbeddedFile → List EmbeddedFile
  | [] => []
  | e :: es => forEachEmbeddeds e ++ forEachEmbeddedsList es
end

/-- A language module (external collaborator, §6 of the spec).
`createSourceFile` may throw (there is no try/catch anywhere in
languageContext.ts), which the embedding renders as `Except.error`.
`updateSourceFile` re-parses a document in place; its result is the
document's refreshed tree. -/
structure LanguageModule where
  createSourceFile : String → String → Except Unit (Option EmbeddedFile)
  updateSourceFile : EmbeddedFile → String → EmbeddedFile

/-- The external `LanguageServiceHost` (§6 of the spec), restricted to the
members the core algorithm reads. Snapshots are identified with their text. -/
structure Host where
  projectVersion : Option String
  scriptFileNames : List String
  scriptVersion : String → String
  scriptSnapshot : String → Option String
  isTsc : Bool
  createHash : Option (String → String)
  fileExists : Option (String → Bool)

/-- languageContext.ts lines 164-172 / 50-56: try each module's
`createSourceFile` in order; the first `some` wins and no later module is
consulted; a thrown exception propagates (there is no catch). -/
def tryModules : List LanguageModule → String → String →
    Except Unit (Option (EmbeddedFile × LanguageModule))
  | [], _, _ => .ok none
  | m :: rest, fileName, snapshot =>
    match m.createSourceFile fileName snapshot with
    | .error e => .error e
    | .ok (some sf) => .ok (some (sf, m))
    | .ok none => tryModules rest fileName snapshot

/-- languageContext.ts line 14: `for (const languageModule of
languageModules.reverse())`. `Array.prototype.reverse` reverses the
caller-supplied array in place and returns the same array, so after
construction both the caller's array and every later iteration over
`languageModules` (the add step of `update`, the trial loop inside
`fileExists`) see the modules in reversed order. -/
def constructedModules (supplied : List LanguageModule) : List LanguageModule :=
  supplied.reverse

/-! ### Adapter state (the closure variables of
`createEmbeddedLanguageServiceHost`, languageContext.ts lines 28-36) -/

structure AdapterState where
  lastProjectVersion : Option String
  tsProjectVersion : Nat
  registry : List (String × EmbeddedFile × LanguageModule)
  sourceVueFileVersions : List (String × String)
  sourceTsFileVersions : List (String × String)
  virtualFileVersions : List (String × String)
  scriptSnapshots : List (String × String × String)

/-- The closure state right after construction. -/
def initialState : AdapterState :=
  { lastProjectVersion := none
    tsProjectVersion := 0
    registry := []
    sourceVueFileVersions := []
    sourceTsFileVersions := []
    virtualFileVersions := []
    scriptSnapshots := [] }

/-- documentRegistry.ts line 46: `has` checks the normalized key. -/
def registryHas (reg : List (String × EmbeddedFile × LanguageModule))
    (fileName : String) : Bool :=
  (alistGet reg (normalizePath fileName)).isSome

/-- One entry of `sourceFilesShouldUpdate` (languageContext.ts line 133),
together with the registry key under which the document is stored so that
the in-place mutation of step 6 can be rendered functionally. -/
structure QueueItem where
  key : String
  sf : EmbeddedFile
  module : LanguageModule
  snapshot : String

/-- Result of the scan over the registered composite documents
(languageContext.ts lines 136-153). -/
structure VueScanOut where
  registry : List (String × EmbeddedFile × LanguageModule)
  vueVersions : List (String × String)
  remains : List String
  queue : List QueueItem
  dirty : Bool

/-- languageContext.ts lines 136-153: for every registered document, drop its
name from `checkRemains`; if the host has no snapshot, delete it and mark
dirty; else if its host version changed, record the new version and queue it
for re-parse. -/
def vueScan (host : Host) :
    List (String × EmbeddedFile × LanguageModule) →
    List (String × EmbeddedFile × LanguageModule) →
    List (String × String) → List String → List QueueItem → Bool → VueScanOut
  | [], reg, vers, remains, queue, dirty =>
    ⟨reg, vers, remains, queue, dirty⟩
  | (key, sf, m) :: rest, reg, vers, remains, queue, dirty =>
    let remains' := setDelete remains sf.fileName
    match host.scriptSnapshot sf.fileName with
    | none =>
      vueScan host rest (alistDelete reg (normalizePath sf.fileName)) vers
        remains' queue true
    | some snap =>
      if alistGet vers sf.fileName ≠ some (host.scriptVersion sf.fileName) then
        vueScan host rest reg
          (alistSet vers sf.fileName (host.scriptVersion sf.fileName))
          remains' (queue ++ [⟨key, sf, m, snap⟩]) dirty
      else
        vueScan host rest reg vers remains' queue dirty

/-- The vue scan as run by `update`: over a snapshot of the registry, with
`checkRemains` freshly initialized from the host's file list (line 132). -/
def updateVueScan (host : Host) (s : AdapterState) : VueScanOut :=
  vueScan host s.registry s.registry s.sourceVueFileVersions
    (jsSetOf host.scriptFileNames) [] false

/-- Result of the add scan (languageContext.ts lines 161-174). -/
structure AddOut where
  registry : List (String × EmbeddedFile × LanguageModule)
  vueVersions : List (String × String)
  remains : List String

/-- languageContext.ts lines 161-174: for every still-unclaimed reported file
with a snapshot, try the modules in order; the winner is recorded in the
registry and consumed from `checkRemains`. A thrown module exception
propagates. -/
def addScan (host : Host) (mods : List LanguageModule) :
    List String →
    List (String × EmbeddedFile × LanguageModule) →
    List (String × String) → List String → Except Unit AddOut
  | [], reg, vers, remains => .ok ⟨reg, vers, remains⟩
  | f :: rest, reg, vers, remains =>
    match host.scriptSnapshot f with
    | none => addScan host mods rest reg vers remains
    | some snap =>
      match tryModules mods f snap with
      | .error e => .error e
      | .ok none => addScan host mods rest reg vers remains
      | .ok (some (sf, m)) =>
        addScan host mods rest (alistSet reg (normalizePath f) (sf, m))
          (alistSet vers sf.fileName (host.scriptVersion f))
          (setDelete remains f)

/-- languageContext.ts lines 177-190: rescan the tracked native files; a
version change marks dirty and either deletes the tracking entry (file gone
and no snapshot) or refreshes it. -/
def tsScan (host : Host) :
    List (String × String) → List (String × String) → List String → Bool →
    List (String × String) × Bool
  | [], tsVers, _, dirty => (tsVers, dirty)
  | (f, oldVer) :: rest, tsVers, remains, dirty =>
    if oldVer ≠ host.scriptVersion f then
      if f ∉ remains ∧ host.scriptSnapshot f = none then
        tsScan host rest (alistDelete tsVers f) remains true
      else
        tsScan host rest (alistSet tsVers f (host.scriptVersion f)) remains true
    else
      tsScan host rest tsVers remains dirty

/-- languageContext.ts lines 192-199: any remaining reported file not yet
version-tracked is a newly added native file; track it and mark dirty. -/
def tsAddScan (host : Host) :
    List String → List (String × String) → Bool →
    List (String × String) × Bool
  | [], tsVers, dirty => (tsVers, dirty)
  | f :: rest, tsVers, dirty =>
    match alistGet tsVers f with
    | some _ => tsAddScan host rest tsVers dirty
    | none => tsAddScan host rest (alistSet tsVers f (host.scriptVersion f)) true

/-- languageContext.ts lines 207-227: the `Record<string, string>` of a
tree's host-visible (`if (embedded.kind)`) file texts, in callback order. -/
def recordScripts : List EmbeddedFile → List (String × String) →
    List (String × String)
  | [], acc => acc
  | e :: rest, acc =>
    recordScripts rest
      (if e.kind.isTruthy then alistSet acc e.fileName e.text else acc)

def hostVisibleScripts (sf : EmbeddedFile) : List (String × String) :=
  recordScripts (forEachEmbeddeds sf) []

/-- Result of the re-parse loop (languageContext.ts lines 201-236). -/
structure ReparseOut where
  registry : List (String × EmbeddedFile × LanguageModule)
  virtualVersions : List (String × String)
  dirty : Bool

/-- languageContext.ts lines 201-236: for every queued document, first drop
every memoized virtual-file version of its (old) tree, snapshot the
host-visible texts unless already dirty, re-parse in place, snapshot again,
and mark dirty when the before/after records differ in size or in any old
key's text. (`documentRegistry.onSourceFileUpdated` — the mapping-cache
invalidation — is modelled separately by `MappingCache.onSourceFileUpdated`.) -/
def reparse : List QueueItem →
    List (String × EmbeddedFile × LanguageModule) →
    List (String × String) → Bool → ReparseOut
  | [], reg, vv, dirty => ⟨reg, vv, dirty⟩
  | item :: rest, reg, vv, dirty =>
    let vv2 := alistDeleteAll vv ((forEachEmbeddeds item.sf).map EmbeddedFile.fileName)
    let oldScripts := if dirty then [] else hostVisibleScripts item.sf
    let newSf := item.module.updateSourceFile item.sf item.snapshot
    let reg2 := alistSet reg item.key (newSf, item.module)
    let newScripts := if dirty then [] else hostVisibleScripts newSf
    let cond := ((!dirty && decide (oldScripts.length ≠ newScripts.length)) ||
      oldScripts.any (fun p => decide (alistGet newScripts p.1 ≠ some p.2)))
    reparse rest reg2 vv2 (if cond = true then true else dirty)

/-- languageContext.ts lines 122-123: run the pass when the host exposes no
project version, or when the reported project version changed. -/
def shouldUpdateB (host : Host) (s : AdapterState) : Bool :=
  host.projectVersion.isNone || decide (host.projectVersion ≠ s.lastProjectVersion)

/-- The body of `update` past the version gate (languageContext.ts lines
130-240), phase by phase in source order. -/
def updateCore (host : Host) (mods : List LanguageModule) (s : AdapterState) :
    Except Unit AdapterState :=
  let v := updateVueScan host s
  let dirty2 := v.dirty || v.queue.isEmpty
  match addScan host mods v.remains v.registry v.vueVersions v.remains with
  | .error e => .error e
  | .ok a =>
    let t1 := tsScan host s.sourceTsFileVersions s.sourceTsFileVersions a.remains dirty2
    let t2 := tsAddScan host a.remains t1.1 t1.2
    let r := reparse v.queue a.registry s.virtualFileVersions t2.2
    .ok { s with
      registry := r.registry
      sourceVueFileVersions := a.vueVersions
      sourceTsFileVersions := t2.1
      virtualFileVersions := r.virtualVersions
      tsProjectVersion :=
        if r.dirty then s.tsProjectVersion + 1 else s.tsProjectVersion }

/-- languageContext.ts lines 120-241: the per-query reconciliation pass.
`lastProjectVersion` is recorded before the gate is evaluated. -/
def update (host : Host) (mods : List LanguageModule) (s : AdapterState) :
    Except Unit AdapterState :=
  let su := shouldUpdateB host s
  let s' := { s with lastProjectVersion := host.projectVersion }
  if su then updateCore host mods s' else .ok s'

/-- A sequence of reconcile passes, one per reported host state. -/
def runUpdates (mods : List LanguageModule) :
    List Host → AdapterState → Except Unit AdapterState
  | [], s => .ok s
  | h :: hs, s =>
    match update h mods s with
    | .error e => .error e
    | .ok s1 => runUpdates mods hs s1

/-! ### Derived queries (served after reconciliation) -/

/-- The host-visible virtual file names contributed by the registered
documents, in registry order (languageContext.ts lines 246-252). -/
def hostVisibleNames : List (String × EmbeddedFile × LanguageModule) → List String
  | [] => []
  | (_, sf, _) :: rest =>
    ((forEachEmbeddeds sf).filterMap fun e =>
      if e.kind = EmbeddedFileKind.TypeScriptHostFile then some e.fileName else none)
      ++ hostVisibleNames rest

/-- languageContext.ts lines 242-261: a `Set` of every host-visible embedded
file name plus every host-reported file that is not a registered composite
document. -/
def getScriptFileNames (host : Host)
    (reg : List (String × EmbeddedFile × LanguageModule)) : List String :=
  jsSetOf (hostVisibleNames reg ++
    host.scriptFileNames.filter (fun f => !(registryHas reg f)))

/-- Inner loop of documentRegistry.ts lines 19-27: index one document's tree
by normalized embedded file name (`Map.set`, so a later binding wins). -/
def indexEmbeddeds (sf : EmbeddedFile) :
    List EmbeddedFile → List (String × EmbeddedFile × EmbeddedFile) →
    List (String × EmbeddedFile × EmbeddedFile)
  | [], acc => acc
  | e :: rest, acc =>
    indexEmbeddeds sf rest (alistSet acc (normalizePath e.fileName) (sf, e))

/-- documentRegistry.ts lines 19-27: the flattened index from every embedded
file name back to its owning document and node. -/
def sourceMapsByFileName :
    List (String × EmbeddedFile × LanguageModule) →
    List (String × EmbeddedFile × EmbeddedFile) →
    List (String × EmbeddedFile × EmbeddedFile)
  | [], acc => acc
  | (_, sf, _) :: rest, acc =>
    sourceMapsByFileName rest (indexEmbeddeds sf (forEachEmbeddeds sf) acc)

/-- documentRegistry.ts lines 51-53. -/
def fromEmbeddedFileName (reg : List (String × EmbeddedFile × LanguageModule))
    (fileName : String) : Option (EmbeddedFile × EmbeddedFile) :=
  alistGet (sourceMapsByFileName reg []) (normalizePath fileName)

/-- languageContext.ts line 269: `ts.sys?.createHash?.(text) ?? text`. -/
def hashOf (host : Host) (text : String) : String :=
  match host.createHash with
  | some h => h text
  | none => text

/-- languageContext.ts lines 262-279: an embedded file's version is a hash of
its text, memoized in `virtualFileVersions` (prefixed with the owning
document's host version under `isTsc`); any other identity defers to the
host's version. -/
def getScriptVersion (host : Host) (s : AdapterState) (fileName : String) :
    String × AdapterState :=
  match fromEmbeddedFileName s.registry fileName with
  | some (sf, emb) =>
    match alistGet s.virtualFileVersions emb.fileName with
    | some v => (v, s)
    | none =>
      let v0 := hashOf host emb.text
      let v := if host.isTsc
        then host.scriptVersion sf.fileName ++ ":" ++ v0
        else v0
      (v, { s with virtualFileVersions := alistSet s.virtualFileVersions emb.fileName v })
  | none => (host.scriptVersion fileName, s)

/-- languageContext.ts lines 280-297: snapshots are cached per lowercased
name, gated by the current version; embedded identities synthesize a snapshot
from the embedded text, others defer to the host (an absent host snapshot is
returned uncached). -/
def getScriptSnapshot (host : Host) (s : AdapterState) (fileName : String) :
    Option String × AdapterState :=
  let p := getScriptVersion host s fileName
  let cached : Option String :=
    match alistGet p.2.scriptSnapshots (toLowerStr fileName) with
    | some (v, snap) => if v = p.1 then some snap else none
    | none => none
  match cached with
  | some snap => (some snap, p.2)
  | none =>
    match fromEmbeddedFileName p.2.registry fileName with
    | some (_, emb) =>
      (some emb.text,
        { p.2 with scriptSnapshots :=
            alistSet p.2.scriptSnapshots (toLowerStr fileName) (p.1, emb.text) })
    | none =>
      match host.scriptSnapshot fileName with
      | some t =>
        (some t,
          { p.2 with scriptSnapshots :=
              alistSet p.2.scriptSnapshots (toLowerStr fileName) (p.1, t) })
      | none => (none, p.2)

/-! ### The synthesized host-facing surface

Every property access on the returned proxies (languageContext.ts lines
105-118) first runs `update()` and then serves the query from the
reconciled state. -/

def surfaceGetScriptFileNames (host : Host) (mods : List LanguageModule)
    (s : AdapterState) : Except Unit (List String × AdapterState) :=
  match update host mods s with
  | .error e => .error e
  | .ok s1 => .ok (getScriptFileNames host s1.registry, s1)

def surfaceGetScriptVersion (host : Host) (mods : List LanguageModule)
    (s : AdapterState) (fileName : String) :
    Except Unit (String × AdapterState) :=
  match update host mods s with
  | .error e => .error e
  | .ok s1 => .ok (getScriptVersion host s1 fileName)

def surfaceGetScriptSnapshot (host : Host) (mods : List LanguageModule)
    (s : AdapterState) (fileName : String) :
    Except Unit (Option String × AdapterState) :=
  match update host mods s with
  | .error e => .error e
  | .ok s1 => .ok (getScriptSnapshot host s1 fileName)

/-- languageContext.ts line 44: `fileName.substring(0, fileName.lastIndexOf('.'))`
(the empty string when there is no dot, since `lastIndexOf` returns -1). -/
def stripLastExt (f : String) : String :=
  let cs := f.toList
  match ((List.range cs.length).filter fun i => cs.get? i = some '.').getLast? with
  | none => ""
  | some i => (cs.take i).asString

/-- languageContext.ts lines 38-65: the opportunistic existence check. The
candidate composite name is the query name with its last extension stripped;
if it is not yet registered, the modules are tried on the host's snapshot
(lazy discovery); the answer is `true` when the name resolves to an embedded
file, else the host's own `fileExists` (false when the host has none). -/
def fileExistsQuery (host : Host) (mods : List LanguageModule)
    (s : AdapterState) (fileName : String) :
    Except Unit (Bool × AdapterState) :=
  let vueFileName := stripLastExt fileName
  let step : Except Unit AdapterState :=
    if (alistGet s.registry (normalizePath vueFileName)).isSome then .ok s
    else
      match host.scriptSnapshot vueFileName with
      | none => .ok s
      | some snap =>
        match tryModules mods vueFileName snap with
        | .error e => .error e
        | .ok none => .ok s
        | .ok (some (sf, m)) =>
          .ok { s with registry := alistSet s.registry (normalizePath vueFileName) (sf, m) }
  match step with
  | .error e => .error e
  | .ok s1 =>
    if (fromEmbeddedFileName s1.registry fileName).isSome then .ok (true, s1)
    else .ok (((host.fileExists).map fun fe => fe fileName).getD false, s1)

/-! ### The mapping cache (documentRegistry.ts lines 40-41, 55-58, 61-86)

The cache is a nested `WeakMap` keyed first by the `SourceFile` object and
then by the identity of the mapping array; the cached value is the translator
object allocated for that pair. Object identities are rendered as natural
numbers: `file` and `table` are the identities of the document and of the
mapping table, and each translator allocation draws a fresh identity from
`nextId`, so two translators are the same JS object exactly when their
identities are equal. -/

structure MappingCache where
  sourceMaps : List ((Nat × Nat) × Nat)
  teleports : List ((Nat × Nat) × Nat)
  nextId : Nat

def MappingCache.empty : MappingCache := ⟨[], [], 0⟩

def pairGet : List ((Nat × Nat) × Nat) → Nat × Nat → Option Nat
  | [], _ => none
  | (k, v) :: rest, q => if k = q then some v else pairGet rest q

/-- documentRegistry.ts lines 61-73: return the memoized translator for
`(file, table)`, allocating (and remembering) a fresh one on a miss. -/
def MappingCache.getSourceMap (c : MappingCache) (file table : Nat) :
    Nat × MappingCache :=
  match pairGet c.sourceMaps (file, table) with
  | some t => (t, c)
  | none =>
    (c.nextId,
      { c with sourceMaps := ((file, table), c.nextId) :: c.sourceMaps
               nextId := c.nextId + 1 })

/-- documentRegistry.ts lines 74-86: the same memoization for teleports. -/
def MappingCache.getTeleport (c : MappingCache) (file table : Nat) :
    Nat × MappingCache :=
  match pairGet c.teleports (file, table) with
  | some t => (t, c)
  | none =>
    (c.nextId,
      { c with teleports := ((file, table), c.nextId) :: c.teleports
               nextId := c.nextId + 1 })

/-- documentRegistry.ts lines 55-58: dropping the document's whole inner
`WeakMap`s discards every cached translator scoped to it. -/
def MappingCache.onSourceFileUpdated (c : MappingCache) (file : Nat) :
    MappingCache :=
  { c with
    sourceMaps := c.sourceMaps.filter fun e => decide (e.1.1 ≠ file)
    teleports := c.teleports.filter fun e => decide (e.1.1 ≠ file) }

/-- Every translator identity stored in the cache was drawn from `nextId`:
true of every reachable cache state. -/
def MappingCache.wf (c : MappingCache) : Prop :=
  (∀ e ∈ c.sourceMaps, e.2 < c.nextId) ∧ (∀ e ∈ c.teleports, e.2 < c.nextId)

/-! ### Concrete hosts, modules and documents used to evaluate the theorems -/

/-- A composite document `a.widget` whose tree exposes one host-visible
virtual file `a.widget.ts`. -/
def embA : EmbeddedFile := .mk "a.widget.ts" "let x=1" .TypeScriptHostFile []

def docA : EmbeddedFile := .mk "a.widget" "srcA" .TextFile [embA]

/-- A module that claims exactly `a.widget` and whose re-parse is a no-op. -/
def modA : LanguageModule :=
  { createSourceFile := fun fn _ =>
      .ok (if fn = "a.widget" then some docA else none)
    updateSourceFile := fun sf _ => sf }

/-- A host that reports only `a.widget`, at version `v2`. -/
def host1 : Host :=
  { projectVersion := some "2"
    scriptFileNames := ["a.widget"]
    scriptVersion := fun _ => "v2"
    scriptSnapshot := fun fn => if fn = "a.widget" then some "srcA2" else none
    isTsc := false
    createHash := none
    fileExists := none }

/-- An adapter state in which `a.widget` is registered at version `v1`, so
the next pass queues it for re-parse. -/
def s1 : AdapterState :=
  { lastProjectVersion := some "1"
    tsProjectVersion := 7
    registry := [("a.widget", docA, modA)]
    sourceVueFileVersions := [("a.widget", "v1")]
    sourceTsFileVersions := []
    virtualFileVersions := []
    scriptSnapshots := [] }

def c1After : AdapterState :=
  (update host1 [modA] s1).toOption.getD initialState

/-- A host with no project version at all (`getProjectVersion` absent). -/
def hostNone : Host :=
  { projectVersion := none
    scriptFileNames := []
    scriptVersion := fun _ => "0"
    scriptSnapshot := fun _ => none
    isTsc := false
    createHash := none
    fileExists := none }

/-- A host exposing a constant project version over an empty project. -/
def host2 : Host :=
  { projectVersion := some "p"
    scriptFileNames := []
    scriptVersion := fun _ => "0"
    scriptSnapshot := fun _ => none
    isTsc := false
    createHash := none
    fileExists := none }

def c2s1 : AdapterState :=
  ((surfaceGetScriptFileNames host2 [] initialState).toOption.map Prod.snd).getD
    initialState

def c2NoneS1 : AdapterState :=
  ((surfaceGetScriptFileNames hostNone [] initialState).toOption.map Prod.snd).getD
    initialState

/-- Two modules that both claim `x.w`, distinguishable by the text of the
document each produces. -/
def docXA : EmbeddedFile := .mk "x.w" "A" .TextFile []

def docXB : EmbeddedFile :=
  .mk "x.w" "B" .TextFile [.mk "x.w.ts" "Bts" .TypeScriptHostFile []]

def modXA : LanguageModule :=
  { createSourceFile := fun fn _ =>
      .ok (if fn = "x.w" then some docXA else none)
    updateSourceFile := fun sf _ => sf }

def modXB : LanguageModule :=
  { createSourceFile := fun fn _ =>
      .ok (if fn = "x.w" then some docXB else none)
    updateSourceFile := fun sf _ => sf }

def host3 : Host :=
  { projectVersion := none
    scriptFileNames := ["x.w"]
    scriptVersion := fun _ => "1"
    scriptSnapshot := fun fn => if fn = "x.w" then some "sx" else none
    isTsc := false
    createHash := none
    fileExists := none }

def c3After : AdapterState :=
  (update host3 (constructedModules [modXA, modXB]) initialState).toOption.getD
    initialState

/-- A module whose parse throws on every file. -/
def modThrow : LanguageModule :=
  { createSourceFile := fun _ _ => .error ()
    updateSourceFile := fun sf _ => sf }

/-- A module that claims every file. -/
def modAny : LanguageModule :=
  { createSourceFile := fun fn _ => .ok (some (.mk fn "D" .TextFile []))
    updateSourceFile := fun sf _ => sf }

/-- A module that declines every file. -/
def modDecline : LanguageModule :=
  { createSourceFile := fun _ _ => .ok none
    updateSourceFile := fun sf _ => sf }

def host4 : Host :=
  { projectVersion := none
    scriptFileNames := ["b.txt"]
    scriptVersion := fun _ => "7"
    scriptSnapshot := fun fn => if fn = "b.txt" then some "tb" else none
    isTsc := false
    createHash := none
    fileExists := none }

def c4After : AdapterState :=
  (update host4 [modDecline, modDecline] initialState).toOption.getD initialState

/-- A host whose only file `a.widget` has no snapshot any more (Scenario C). -/
def host8 : Host :=
  { projectVersion := none
    scriptFileNames := []
    scriptVersion := fun _ => "v9"
    scriptSnapshot := fun _ => none
    isTsc := false
    createHash := none
    fileExists := none }

def s8 : AdapterState :=
  { lastProjectVersion := none
    tsProjectVersion := 5
    registry := [("a.widget", docA, modA)]
    sourceVueFileVersions := [("a.widget", "v1")]
    sourceTsFileVersions := []
    virtualFileVersions := [("a.widget.ts", "hv")]
    scriptSnapshots := [] }

def c8After : AdapterState :=
  (update host8 [modA] s8).toOption.getD initialState

/-- A host with an explicit hash function, for the version-derivation claim. -/
def host9 : Host :=
  { projectVersion := some "2"
    scriptFileNames := ["a.widget"]
    scriptVersion := fun _ => "v2"
    scriptSnapshot := fun fn => if fn = "a.widget" then some "srcA2" else none
    isTsc := false
    createHash := some (fun t => "h:" ++ t)
    fileExists := none }

def c9After : AdapterState :=
  (update host9 [modA] s1).toOption.getD initialState

def c6After : AdapterState :=
  (update hostNone [] initialState).toOption.getD initialState

def c10After : AdapterState :=
  ((fileExistsQuery host3 (constructedModules [modXA, modXB]) initialState
      "x.w.ts").toOption.map Prod.snd).getD initialState

def c5c1 : MappingCache := (MappingCache.empty.getSourceMap 0 1).2

def c5t1 : Nat := (MappingCache.empty.getSourceMap 0 1).1

def c5pair2 : Nat × MappingCache :=
  (c5c1.onSourceFileUpdated 0).getSourceMap 0 1

def c5d1 : MappingCache := (MappingCache.empty.getTeleport 0 1).2

def c5u1 : Nat := (MappingCache.empty.getTeleport 0 1).1

def c5pair2t : Nat × MappingCache :=
  (c5d1.onSourceFileUpdated 0).getTeleport 0 1

/-! ## Lemmas about the association-list and set primitives -/

theorem alistGet_set_self {α : Type} (l : List (String × α)) (k : String) (v : α) :
    alistGet (alistSet l k v) k = some v := by
  induction l with
  | nil => simp [alistSet, alistGet]
  | cons p rest ih =>
    obtain ⟨k', v'⟩ := p
    by_cases h : k' = k <;> simp [alistSet, alistGet, h, ih]

theorem alistGet_set_ne {α : Type} (l : List (String × α)) (k k' : String) (v : α)
    (h : k' ≠ k) : alistGet (alistSet l k v) k' = alistGet l k' := by
  have hk : ¬ k = k' := fun hh => h hh.symm
  induction l with
  | nil => simp [alistSet, alistGet, hk]
  | cons p rest ih =>
    obtain ⟨k₀, v₀⟩ := p
    by_cases h0 : k₀ = k
    · subst h0
      simp [alistSet, alistGet, hk]
    · simp [alistSet, alistGet, h0, ih]

theorem alistGet_delete_self {α : Type} (l : List (String × α)) (k : String) :
    alistGet (alistDelete l k) k = none := by
  induction l with
  | nil => simp [alistDelete, alistGet]
  | cons p rest ih =>
    obtain ⟨k', v⟩ := p
    by_cases h : k' = k <;> simp [alistDelete, alistGet, h, ih]

theorem alistGet_delete_ne {α : Type} (l : List (String × α)) (k k' : String)
    (h : k' ≠ k) : alistGet (alistDelete l k) k' = alistGet l k' := by
  have hk : ¬ k = k' := fun hh => h hh.symm
  induction l with
  | nil => simp [alistDelete, alistGet]
  | cons p rest ih =>
    obtain ⟨k₀, v₀⟩ := p
    by_cases h0 : k₀ = k
    · subst h0
      simp [alistDelete, alistGet, hk, ih]
    · by_cases h1 : k₀ = k' <;> simp [alistDelete, alistGet, h0, h1, h, ih]

theorem alistGet_delete_none {α : Type} (l : List (String × α)) (k k' : String)
    (h : alistGet l k' = none) : alistGet (alistDelete l k) k' = none := by
  by_cases hk : k' = k
  · subst hk; exact alistGet_delete_self l k'
  · rw [alistGet_delete_ne l k k' hk]; exact h

theorem alistGet_deleteAll_none {α : Type} (ns : List String)
    (l : List (String × α)) (k : String) (h : alistGet l k = none) :
    alistGet (alistDeleteAll l ns) k = none := by
  induction ns generalizing l with
  | nil => simpa [alistDeleteAll] using h
  | cons n ns ih =>
    simp only [alistDeleteAll]
    exact ih _ (alistGet_delete_none _ _ _ h)

theorem alistGet_deleteAll_mem {α : Type} (ns : List String)
    (l : List (String × α)) (k : String) (h : k ∈ ns) :
    alistGet (alistDeleteAll l ns) k = none := by
  induction ns generalizing l with
  | nil => cases h
  | cons n ns ih =>
    simp only [alistDeleteAll]
    rcases List.mem_cons.mp h with h | h
    · subst h
      exact alistGet_deleteAll_none _ _ _ (alistGet_delete_self _ _)
    · exact ih _ h

theorem alistGet_eq_none_iff {α : Type} (l : List (String × α)) (k : String) :
    alistGet l k = none ↔ k ∉ l.map Prod.fst := by
  induction l with
  | nil => simp [alistGet]
  | cons p rest ih =>
    obtain ⟨k', v⟩ := p
    by_cases h : k' = k
    · subst h; simp [alistGet]
    · have hk : ¬ k = k' := fun hh => h hh.symm
      simp [alistGet, h, ih, hk]

theorem alistGet_some_mem {α : Type} (l : List (String × α)) (k : String) (v : α)
    (h : alistGet l k = some v) : (k, v) ∈ l := by
  induction l with
  | nil => simp [alistGet] at h
  | cons p rest ih =>
    obtain ⟨k', v'⟩ := p
    simp only [alistGet] at h
    split at h
    · rename_i heq
      injection h with h
      subst heq; subst h
      exact List.mem_cons_self _ _
    · exact List.mem_cons_of_mem _ (ih h)

theorem alistGet_of_mem_nodup {α : Type} (l : List (String × α)) (k : String)
    (v : α) (hn : alistKeysNodup l) (h : (k, v) ∈ l) : alistGet l k = some v := by
  induction l with
  | nil => cases h
  | cons p rest ih =>
    obtain ⟨k', v'⟩ := p
    simp only [alistKeysNodup, List.map_cons, List.nodup_cons] at hn
    rcases List.mem_cons.mp h with h | h
    · cases h; simp [alistGet]
    · have hne : k' ≠ k := by
        intro hk; subst hk
        exact hn.1 (List.mem_map.mpr ⟨(k', v), h, rfl⟩)
      simp only [alistGet, if_neg hne]
      exact ih hn.2 h

theorem alistSet_keys {α : Type} (l : List (String × α)) (k : String) (v : α) :
    (alistSet l k v).map Prod.fst =
      if k ∈ l.map Prod.fst then l.map Prod.fst else l.map Prod.fst ++ [k] := by
  induction l with
  | nil => simp [alistSet]
  | cons p rest ih =>
    obtain ⟨k₀, v₀⟩ := p
    by_cases h0 : k₀ = k
    · subst h0; simp [alistSet]
    · have hk : ¬ k = k₀ := fun hh => h0 hh.symm
      by_cases hm : k ∈ rest.map Prod.fst <;>
        simp [alistSet, h0, hk, hm, ih]

theorem alistKeysNodup_set {α : Type} (l : List (String × α)) (k : String) (v : α)
    (hn : alistKeysNodup l) : alistKeysNodup (alistSet l k v) := by
  unfold alistKeysNodup at *
  rw [alistSet_keys]
  by_cases hm : k ∈ l.map Prod.fst
  · simpa [hm] using hn
  · simp [hm, List.nodup_append, hn, List.disjoint_singleton]

theorem alist_length_eq_of_get_eq {α : Type} (l₁ l₂ : List (String × α))
    (h₁ : alistKeysNodup l₁) (h₂ : alistKeysNodup l₂)
    (h : ∀ k, alistGet l₁ k = alistGet l₂ k) : l₁.length = l₂.length := by
  have hperm : List.Perm (l₁.map Prod.fst) (l₂.map Prod.fst) := by
    refine (List.perm_ext_iff_of_nodup h₁ h₂).mpr fun k => ?_
    constructor
    · intro hk
      by_contra hk2
      have := (alistGet_eq_none_iff l₂ k).mpr hk2
      rw [← h k, alistGet_eq_none_iff] at this
      exact this hk
    · intro hk
      by_contra hk2
      have := (alistGet_eq_none_iff l₁ k).mpr hk2
      rw [h k, alistGet_eq_none_iff] at this
      exact this hk
  simpa using hperm.length_eq

theorem mem_jsSetOf (l : List String) (a : String) : a ∈ jsSetOf l ↔ a ∈ l := by
  induction l with
  | nil => simp [jsSetOf]
  | cons x xs ih =>
    by_cases h : a = x
    · subst h; simp [jsSetOf]
    · simp [jsSetOf, h, ih]

theorem nodup_jsSetOf (l : List String) : (jsSetOf l).Nodup := by
  induction l with
  | nil => simp [jsSetOf]
  | cons x xs ih =>
    simp only [jsSetOf, List.nodup_cons]
    constructor
    · intro h
      have := (List.mem_filter.mp h).2
      simp at this
    · exact ih.filter _

theorem mem_setDelete (l : List String) (k a : String) :
    a ∈ setDelete l k ↔ a ∈ l ∧ a ≠ k := by
  induction l with
  | nil => simp [setDelete]
  | cons x xs ih =>
    simp only [setDelete]
    split
    · rename_i hx
      subst hx
      rw [ih]
      constructor
      · rintro ⟨h1, h2⟩
        exact ⟨List.mem_cons_of_mem _ h1, h2⟩
      · rintro ⟨h1, h2⟩
        rcases List.mem_cons.mp h1 with h1 | h1
        · exact absurd h1 h2
        · exact ⟨h1, h2⟩
    · rename_i hx
      constructor
      · intro hmem
        rcases List.mem_cons.mp hmem with h1 | h1
        · subst h1
          exact ⟨List.mem_cons_self _ _, hx⟩
        · have h2 := ih.mp h1
          exact ⟨List.mem_cons_of_mem _ h2.1, h2.2⟩
      · rintro ⟨h1, h2⟩
        rcases List.mem_cons.mp h1 with h1 | h1
        · subst h1
          exact List.mem_cons_self _ _
        · exact List.mem_cons_of_mem _ (ih.mpr ⟨h1, h2⟩)

/-! ## Lemmas about the reconciliation phases -/

theorem vueScan_registry_ok (host : Host)
    (entries reg : List (String × EmbeddedFile × LanguageModule))
    (vers : List (String × String)) (remains : List String)
    (queue : List QueueItem) (dirty : Bool)
    (h : ∀ e ∈ entries, host.scriptSnapshot e.2.1.fileName ≠ none) :
    (vueScan host entries reg vers remains queue dirty).registry = reg := by
  induction entries generalizing reg vers remains queue dirty with
  | nil => rfl
  | cons p rest ih =>
    obtain ⟨key, sf, m⟩ := p
    have hsf := h (key, sf, m) (List.mem_cons_self _ _)
    have hrest := fun e he => h e (List.mem_cons_of_mem _ he)
    simp only [vueScan]
    split
    · rename_i heq
      exact absurd heq hsf
    · split
      · exact ih _ _ _ _ _ hrest
      · exact ih _ _ _ _ _ hrest

theorem vueScan_dirty_ok (host : Host)
    (entries reg : List (String × EmbeddedFile × LanguageModule))
    (vers : List (String × String)) (remains : List String)
    (queue : List QueueItem) (dirty : Bool)
    (h : ∀ e ∈ entries, host.scriptSnapshot e.2.1.fileName ≠ none) :
    (vueScan host entries reg vers remains queue dirty).dirty = dirty := by
  induction entries generalizing reg vers remains queue dirty with
  | nil => rfl
  | cons p rest ih =>
    obtain ⟨key, sf, m⟩ := p
    have hsf := h (key, sf, m) (List.mem_cons_self _ _)
    have hrest := fun e he => h e (List.mem_cons_of_mem _ he)
    simp only [vueScan]
    split
    · rename_i heq
      exact absurd heq hsf
    · split
      · exact ih _ _ _ _ _ hrest
      · exact ih _ _ _ _ _ hrest

theorem vueScan_dirty_mono (host : Host)
    (entries reg : List (String × EmbeddedFile × LanguageModule))
    (vers : List (String × String)) (remains : List String)
    (queue : List QueueItem) :
    (vueScan host entries reg vers remains queue true).dirty = true := by
  induction entries generalizing reg vers remains queue with
  | nil => rfl
  | cons p rest ih =>
    obtain ⟨key, sf, m⟩ := p
    simp only [vueScan]
    split
    · exact ih _ _ _ _
    · split
      · exact ih _ _ _ _
      · exact ih _ _ _ _

theorem vueScan_dirty_of_none (host : Host)
    (entries reg : List (String × EmbeddedFile × LanguageModule))
    (vers : List (String × String)) (remains : List String)
    (queue : List QueueItem) (dirty : Bool)
    (k : String) (sf : EmbeddedFile) (m : LanguageModule)
    (hmem : (k, sf, m) ∈ entries)
    (hsnap : host.scriptSnapshot sf.fileName = none) :
    (vueScan host entries reg vers remains queue dirty).dirty = true := by
  induction entries generalizing reg vers remains queue dirty with
  | nil => cases hmem
  | cons p rest ih =>
    obtain ⟨k1, sf1, m1⟩ := p
    rcases List.mem_cons.mp hmem with hh | hh
    · have hsf : sf = sf1 := congrArg (fun x => x.2.1) hh
      simp only [vueScan]
      rw [← hsf]
      split
      · exact vueScan_dirty_mono host rest _ _ _ _
      · rename_i snap heq
        rw [hsnap] at heq
        cases heq
    · simp only [vueScan]
      split
      · exact vueScan_dirty_mono host rest _ _ _ _
      · split
        · exact ih _ _ _ _ _ hh
        · exact ih _ _ _ _ _ hh

theorem vueScan_queue_extends (host : Host)
    (entries reg : List (String × EmbeddedFile × LanguageModule))
    (vers : List (String × String)) (remains : List String)
    (queue : List QueueItem) (dirty : Bool) :
    ∃ q, (vueScan host entries reg vers remains queue dirty).queue = queue ++ q := by
  induction entries generalizing reg vers remains queue dirty with
  | nil => exact ⟨[], by simp [vueScan]⟩
  | cons p rest ih =>
    obtain ⟨key, sf, m⟩ := p
    simp only [vueScan]
    split
    · exact ih _ _ _ _ _
    · rename_i snap heq
      split
      · obtain ⟨q, hq⟩ := ih reg
          (alistSet vers sf.fileName (host.scriptVersion sf.fileName))
          (setDelete remains sf.fileName)
          (queue ++ [⟨key, sf, m, snap⟩]) dirty
        refine ⟨⟨key, sf, m, snap⟩ :: q, ?_⟩
        rw [hq]
        simp
      · exact ih _ _ _ _ _

theorem vueScan_queue_src (host : Host)
    (entries reg : List (String × EmbeddedFile × LanguageModule))
    (vers : List (String × String)) (remains : List String)
    (queue : List QueueItem) (dirty : Bool) (item : QueueItem)
    (h : item ∈ (vueScan host entries reg vers remains queue dirty).queue) :
    item ∈ queue ∨ ((item.key, item.sf, item.module) ∈ entries ∧
      host.scriptSnapshot item.sf.fileName = some item.snapshot) := by
  induction entries generalizing reg vers remains queue dirty with
  | nil => exact Or.inl h
  | cons p rest ih =>
    obtain ⟨key, sf, m⟩ := p
    simp only [vueScan] at h
    split at h
    · rcases ih _ _ _ _ _ h with hq | ⟨hm, hs⟩
      · exact Or.inl hq
      · exact Or.inr ⟨List.mem_cons_of_mem _ hm, hs⟩
    · rename_i snap heq
      split at h
      · rcases ih _ _ _ _ _ h with hq | ⟨hm, hs⟩
        · rcases List.mem_append.mp hq with hq | hq
          · exact Or.inl hq
          · rcases List.mem_singleton.mp hq with rfl
            exact Or.inr ⟨List.mem_cons_self _ _, heq⟩
        · exact Or.inr ⟨List.mem_cons_of_mem _ hm, hs⟩
      · rcases ih _ _ _ _ _ h with hq | ⟨hm, hs⟩
        · exact Or.inl hq
        · exact Or.inr ⟨List.mem_cons_of_mem _ hm, hs⟩

theorem vueScan_remains_sub (host : Host)
    (entries reg : List (String × EmbeddedFile × LanguageModule))
    (vers : List (String × String)) (remains : List String)
    (queue : List QueueItem) (dirty : Bool) (a : String)
    (h : a ∈ (vueScan host entries reg vers remains queue dirty).remains) :
    a ∈ remains := by
  induction entries generalizing reg vers remains queue dirty with
  | nil => exact h
  | cons p rest ih =>
    obtain ⟨key, sf, m⟩ := p
    simp only [vueScan] at h
    split at h
    · exact ((mem_setDelete _ _ _).mp (ih _ _ _ _ _ h)).1
    · split at h
      · exact ((mem_setDelete _ _ _).mp (ih _ _ _ _ _ h)).1
      · exact ((mem_setDelete _ _ _).mp (ih _ _ _ _ _ h)).1

theorem vueScan_remains_not_entry (host : Host)
    (entries reg : List (String × EmbeddedFile × LanguageModule))
    (vers : List (String × String)) (remains : List String)
    (queue : List QueueItem) (dirty : Bool)
    (k : String) (sf : EmbeddedFile) (m : LanguageModule)
    (hmem : (k, sf, m) ∈ entries) :
    sf.fileName ∉ (vueScan host entries reg vers remains queue dirty).remains := by
  induction entries generalizing reg vers remains queue dirty with
  | nil => cases hmem
  | cons p rest ih =>
    obtain ⟨k1, sf1, m1⟩ := p
    rcases List.mem_cons.mp hmem with hh | hh
    · have hsf : sf = sf1 := congrArg (fun x => x.2.1) hh
      intro hcontra
      have hmem2 : sf.fileName ∈ setDelete remains sf1.fileName := by
        simp only [vueScan] at hcontra
        split at hcontra
        · exact vueScan_remains_sub host rest _ _ _ _ _ _ hcontra
        · split at hcontra
          · exact vueScan_remains_sub host rest _ _ _ _ _ _ hcontra
          · exact vueScan_remains_sub host rest _ _ _ _ _ _ hcontra
      rw [← hsf] at hmem2
      exact ((mem_setDelete _ _ _).mp hmem2).2 rfl
    · intro hcontra
      revert hcontra
      simp only [vueScan]
      split
      · exact fun hc => ih _ _ _ _ _ hh hc
      · split
        · exact fun hc => ih _ _ _ _ _ hh hc
        · exact fun hc => ih _ _ _ _ _ hh hc

theorem vueScan_registry_none (host : Host)
    (entries reg : List (String × EmbeddedFile × LanguageModule))
    (vers : List (String × String)) (remains : List String)
    (queue : List QueueItem) (dirty : Bool) (k : String)
    (h : alistGet reg k = none) :
    alistGet (vueScan host entries reg vers remains queue dirty).registry k = none := by
  induction entries generalizing reg vers remains queue dirty with
  | nil => exact h
  | cons p rest ih =>
    obtain ⟨k1, sf1, m1⟩ := p
    simp only [vueScan]
    split
    · exact ih _ _ _ _ _ (alistGet_delete_none _ _ _ h)
    · split
      · exact ih _ _ _ _ _ h
      · exact ih _ _ _ _ _ h

theorem vueScan_registry_k_none (host : Host)
    (entries reg : List (String × EmbeddedFile × LanguageModule))
    (vers : List (String × String)) (remains : List String)
    (queue : List QueueItem) (dirty : Bool)
    (k : String) (sf : EmbeddedFile) (m : LanguageModule)
    (hmem : (k, sf, m) ∈ entries)
    (hsnap : host.scriptSnapshot sf.fileName = none)
    (hkey : normalizePath sf.fileName = k) :
    alistGet (vueScan host entries reg vers remains queue dirty).registry k = none := by
  induction entries generalizing reg vers remains queue dirty with
  | nil => cases hmem
  | cons p rest ih =>
    obtain ⟨k1, sf1, m1⟩ := p
    rcases List.mem_cons.mp hmem with hh | hh
    · have hsf : sf = sf1 := congrArg (fun x => x.2.1) hh
      simp only [vueScan]
      rw [← hsf]
      split
      · exact vueScan_registry_none host rest _ _ _ _ _ _
          (hkey ▸ alistGet_delete_self reg (normalizePath sf.fileName))
      · rename_i snap heq
        rw [hsnap] at heq
        cases heq
    · simp only [vueScan]
      split
      · exact ih _ _ _ _ _ hh
      · split
        · exact ih _ _ _ _ _ hh
        · exact ih _ _ _ _ _ hh


theorem tryModules_none (mods : List LanguageModule) (f snap : String)
    (h : ∀ m ∈ mods, m.createSourceFile f snap = .ok none) :
    tryModules mods f snap = .ok none := by
  induction mods with
  | nil => rfl
  | cons m rest ih =>
    simp only [tryModules]
    rw [h m (List.mem_cons_self _ _)]
    exact ih fun m2 hm2 => h m2 (List.mem_cons_of_mem _ hm2)

theorem addScan_id (host : Host) (mods : List LanguageModule)
    (files : List String) (reg : List (String × EmbeddedFile × LanguageModule))
    (vers : List (String × String)) (remains : List String)
    (h : ∀ f ∈ files, ∀ snap, host.scriptSnapshot f = some snap →
      tryModules mods f snap = .ok none) :
    addScan host mods files reg vers remains = .ok ⟨reg, vers, remains⟩ := by
  induction files generalizing reg vers remains with
  | nil => rfl
  | cons f rest ih =>
    have hrest := fun f2 hf2 => h f2 (List.mem_cons_of_mem _ hf2)
    simp only [addScan]
    split
    · exact ih _ _ _ hrest
    · rename_i snap heq
      rw [h f (List.mem_cons_self _ _) snap heq]
      exact ih _ _ _ hrest

theorem addScan_registry_none (host : Host) (mods : List LanguageModule)
    (files : List String) (reg : List (String × EmbeddedFile × LanguageModule))
    (vers : List (String × String)) (remains : List String) (k : String)
    (hreg : alistGet reg k = none)
    (h : ∀ f ∈ files, normalizePath f = k → ∀ snap,
      host.scriptSnapshot f = some snap → tryModules mods f snap = .ok none) :
    ∀ a, addScan host mods files reg vers remains = .ok a →
      alistGet a.registry k = none := by
  induction files generalizing reg vers remains with
  | nil =>
    intro a ha
    injection ha with ha
    subst ha
    exact hreg
  | cons f rest ih =>
    intro a ha
    have hrest := fun f2 hf2 => h f2 (List.mem_cons_of_mem _ hf2)
    simp only [addScan] at ha
    split at ha
    · exact ih _ _ _ hreg hrest a ha
    · rename_i snap heq
      split at ha
      · cases ha
      · exact ih _ _ _ hreg hrest a ha
      · rename_i sf2 m2 htry
        by_cases hk : normalizePath f = k
        · rw [h f (List.mem_cons_self _ _) hk snap heq] at htry
          cases htry
        · refine ih _ _ _ ?_ hrest a ha
          rw [alistGet_set_ne reg (normalizePath f) k (sf2, m2) (fun hh => hk hh.symm)]
          exact hreg

theorem tsScan_id (host : Host) (items tsVers : List (String × String))
    (remains : List String) (dirty : Bool)
    (h : ∀ p ∈ items, host.scriptVersion p.1 = p.2) :
    tsScan host items tsVers remains dirty = (tsVers, dirty) := by
  induction items generalizing tsVers dirty with
  | nil => rfl
  | cons p rest ih =>
    obtain ⟨f, oldVer⟩ := p
    have hf := h (f, oldVer) (List.mem_cons_self _ _)
    have hrest := fun p2 hp2 => h p2 (List.mem_cons_of_mem _ hp2)
    simp only [tsScan]
    rw [if_neg]
    · exact ih _ _ hrest
    · intro hne
      exact hne hf.symm

theorem tsScan_dirty_mono (host : Host) (items tsVers : List (String × String))
    (remains : List String) :
    (tsScan host items tsVers remains true).2 = true := by
  induction items generalizing tsVers with
  | nil => rfl
  | cons p rest ih =>
    obtain ⟨f, oldVer⟩ := p
    simp only [tsScan]
    split
    · split
      · exact ih _
      · exact ih _
    · exact ih _

theorem tsAddScan_id (host : Host) (files : List String)
    (tsVers : List (String × String)) (dirty : Bool)
    (h : ∀ f ∈ files, alistGet tsVers f ≠ none) :
    tsAddScan host files tsVers dirty = (tsVers, dirty) := by
  induction files with
  | nil => rfl
  | cons f rest ih =>
    have hf := h f (List.mem_cons_self _ _)
    have hrest := fun f2 hf2 => h f2 (List.mem_cons_of_mem _ hf2)
    simp only [tsAddScan]
    split
    · exact ih hrest
    · rename_i heq
      exact absurd heq hf

theorem tsAddScan_dirty_mono (host : Host) (files : List String)
    (tsVers : List (String × String)) :
    (tsAddScan host files tsVers true).2 = true := by
  induction files generalizing tsVers with
  | nil => rfl
  | cons f rest ih =>
    simp only [tsAddScan]
    split
    · exact ih _
    · exact ih _

theorem recordScripts_keysNodup (es : List EmbeddedFile)
    (acc : List (String × String)) (h : alistKeysNodup acc) :
    alistKeysNodup (recordScripts es acc) := by
  induction es generalizing acc with
  | nil => exact h
  | cons e rest ih =>
    simp only [recordScripts]
    split
    · exact ih _ (alistKeysNodup_set _ _ _ h)
    · exact ih _ h

theorem hostVisibleScripts_keysNodup (sf : EmbeddedFile) :
    alistKeysNodup (hostVisibleScripts sf) :=
  recordScripts_keysNodup _ _ (by simp [alistKeysNodup])

theorem reparse_dirty_mono (queue : List QueueItem)
    (reg : List (String × EmbeddedFile × LanguageModule))
    (vv : List (String × String)) :
    (reparse queue reg vv true).dirty = true := by
  induction queue generalizing reg vv with
  | nil => rfl
  | cons item rest ih =>
    simp only [reparse, ite_self]
    exact ih _ _

theorem reparse_noop (queue : List QueueItem)
    (reg : List (String × EmbeddedFile × LanguageModule))
    (vv : List (String × String))
    (h : ∀ item ∈ queue, ∀ n,
      alistGet (hostVisibleScripts (item.module.updateSourceFile item.sf item.snapshot)) n =
        alistGet (hostVisibleScripts item.sf) n) :
    (reparse queue reg vv false).dirty = false := by
  induction queue generalizing reg vv with
  | nil => rfl
  | cons item rest ih =>
    have hitem := h item (List.mem_cons_self _ _)
    have hrest := fun i2 hi2 => h i2 (List.mem_cons_of_mem _ hi2)
    have hlen : decide ((hostVisibleScripts item.sf).length ≠
        (hostVisibleScripts (item.module.updateSourceFile item.sf item.snapshot)).length) = false := by
      apply decide_eq_false
      intro hne
      exact hne (alist_length_eq_of_get_eq _ _ (hostVisibleScripts_keysNodup _)
        (hostVisibleScripts_keysNodup _) fun k => (hitem k).symm)
    have hany : (hostVisibleScripts item.sf).any (fun p =>
        decide (alistGet (hostVisibleScripts (item.module.updateSourceFile item.sf item.snapshot)) p.1 ≠
          some p.2)) = false := by
      apply List.any_eq_false.mpr
      intro p hp
      have hget : alistGet (hostVisibleScripts item.sf) p.1 = some p.2 := by
        have hp2 : (p.1, p.2) ∈ hostVisibleScripts item.sf := by
          simpa using hp
        exact alistGet_of_mem_nodup _ _ _ (hostVisibleScripts_keysNodup _) hp2
      simp [hitem p.1, hget]
    have hfalse : ¬ (false = true) := by simp
    simp only [reparse, if_neg hfalse, Bool.not_false, Bool.true_and, hlen, hany,
      Bool.or_self]
    exact ih _ _ hrest

theorem reparse_vv_none (queue : List QueueItem)
    (reg : List (String × EmbeddedFile × LanguageModule))
    (vv : List (String × String)) (dirty : Bool) (n : String)
    (h : alistGet vv n = none) :
    alistGet (reparse queue reg vv dirty).virtualVersions n = none := by
  induction queue generalizing reg vv dirty with
  | nil => exact h
  | cons item rest ih =>
    simp only [reparse]
    exact ih _ _ _ (alistGet_deleteAll_none _ _ _ h)

theorem reparse_vv_item (queue : List QueueItem)
    (reg : List (String × EmbeddedFile × LanguageModule))
    (vv : List (String × String)) (dirty : Bool) (item : QueueItem)
    (e : EmbeddedFile) (hmem : item ∈ queue) (he : e ∈ forEachEmbeddeds item.sf) :
    alistGet (reparse queue reg vv dirty).virtualVersions e.fileName = none := by
  induction queue generalizing reg vv dirty with
  | nil => cases hmem
  | cons item2 rest ih =>
    rcases List.mem_cons.mp hmem with hh | hh
    · subst hh
      simp only [reparse]
      exact reparse_vv_none _ _ _ _ _
        (alistGet_deleteAll_mem _ _ _ (List.mem_map.mpr ⟨e, he, rfl⟩))
    · simp only [reparse]
      exact ih _ _ _ hh

theorem reparse_registry_none (queue : List QueueItem)
    (reg : List (String × EmbeddedFile × LanguageModule))
    (vv : List (String × String)) (dirty : Bool) (k : String)
    (hreg : alistGet reg k = none)
    (h : ∀ item ∈ queue, item.key ≠ k) :
    alistGet (reparse queue reg vv dirty).registry k = none := by
  induction queue generalizing reg vv dirty with
  | nil => exact hreg
  | cons item rest ih =>
    simp only [reparse]
    refine ih _ _ _ ?_ fun i2 hi2 => h i2 (List.mem_cons_of_mem _ hi2)
    rw [alistGet_set_ne reg item.key k _ (Ne.symm (h item (List.mem_cons_self _ _)))]
    exact hreg


/-! ## Lemmas about `update` and the queries -/

theorem update_eq (host : Host) (mods : List LanguageModule) (s : AdapterState) :
    update host mods s =
      if shouldUpdateB host s
      then updateCore host mods { s with lastProjectVersion := host.projectVersion }
      else .ok { s with lastProjectVersion := host.projectVersion } := rfl

theorem update_lastProjectVersion (host : Host) (mods : List LanguageModule)
    (s s' : AdapterState) (h : update host mods s = .ok s') :
    s'.lastProjectVersion = host.projectVersion := by
  rw [update_eq] at h
  split at h
  · simp only [updateCore] at h
    split at h
    · cases h
    · injection h with h
      subst h
      rfl
  · injection h with h
    subst h
    rfl

theorem update_noop (host : Host) (mods : List LanguageModule) (s : AdapterState)
    (v : String) (hv : host.projectVersion = some v)
    (hl : s.lastProjectVersion = some v) : update host mods s = .ok s := by
  have hsu : shouldUpdateB host s = false := by
    simp [shouldUpdateB, hv, hl]
  rw [update_eq, hsu, if_neg (show ¬ (false = true) by simp)]
  rw [hv, ← hl]

theorem getScriptVersion_fields (host : Host) (s : AdapterState) (f : String) :
    (getScriptVersion host s f).2.registry = s.registry ∧
    (getScriptVersion host s f).2.lastProjectVersion = s.lastProjectVersion ∧
    (getScriptVersion host s f).2.tsProjectVersion = s.tsProjectVersion ∧
    (getScriptVersion host s f).2.scriptSnapshots = s.scriptSnapshots := by
  simp only [getScriptVersion]
  split
  · split
    · exact ⟨rfl, rfl, rfl, rfl⟩
    · exact ⟨rfl, rfl, rfl, rfl⟩
  · exact ⟨rfl, rfl, rfl, rfl⟩

theorem getScriptVersion_stable (host : Host) (s : AdapterState) (f : String)
    (r : String) (s1 : AdapterState) (h : getScriptVersion host s f = (r, s1)) :
    getScriptVersion host s1 f = (r, s1) := by
  simp only [getScriptVersion] at h ⊢
  split at h
  · rename_i p sf emb hemb
    split at h
    · rename_i v hv
      injection h with h1 h2
      subst h1
      subst h2
      simp only [hemb, hv]
    · rename_i hvnone
      injection h with h1 h2
      subst h1
      subst h2
      simp only [hemb, alistGet_set_self]
  · rename_i hemb
    injection h with h1 h2
    subst h1
    subst h2
    simp only [hemb]

/-- The snapshot-cache field does not feed the version computation. -/
theorem getScriptVersion_snapshots_irrel (host : Host) (s : AdapterState)
    (f : String) (x : List (String × String × String)) :
    getScriptVersion host { s with scriptSnapshots := x } f =
      ((getScriptVersion host s f).1,
        { (getScriptVersion host s f).2 with scriptSnapshots := x }) := by
  simp only [getScriptVersion]
  split
  · split
    · rfl
    · rfl
  · rfl


theorem getScriptSnapshot_stable (host : Host) (s : AdapterState) (f : String)
    (r : Option String) (s1 : AdapterState)
    (h : getScriptSnapshot host s f = (r, s1)) :
    getScriptSnapshot host s1 f = (r, s1) := by
  have hstab : getScriptVersion host (getScriptVersion host s f).2 f =
      ((getScriptVersion host s f).1, (getScriptVersion host s f).2) :=
    getScriptVersion_stable host s f _ _ rfl
  simp only [getScriptSnapshot] at h ⊢
  split at h
  · rename_i val heq
    injection h with h1 h2
    subst h1
    subst h2
    split at heq
    · rename_i p v snap hc
      split at heq
      · rename_i hveq
        injection heq with heq
        subst heq
        simp [hstab, hc, hveq]
      · cases heq
    · cases heq
  · rename_i heq
    split at h
    · rename_i p sfx emb hemb
      injection h with h1 h2
      subst h1
      subst h2
      have hirr := getScriptVersion_snapshots_irrel host (getScriptVersion host s f).2 f
        (alistSet (getScriptVersion host s f).2.scriptSnapshots (toLowerStr f)
          ((getScriptVersion host s f).1, emb.text))
      rw [hstab] at hirr
      simp [hirr, alistGet_set_self]
    · rename_i hemb
      split at h
      · rename_i t hsnap
        injection h with h1 h2
        subst h1
        subst h2
        have hirr := getScriptVersion_snapshots_irrel host (getScriptVersion host s f).2 f
          (alistSet (getScriptVersion host s f).2.scriptSnapshots (toLowerStr f)
            ((getScriptVersion host s f).1, t))
        rw [hstab] at hirr
        simp [hirr, alistGet_set_self, hemb, hsnap]
      · rename_i hsnap
        injection h with h1 h2
        subst h1
        subst h2
        simp [hstab, heq, hemb, hsnap]


theorem getScriptSnapshot_fields (host : Host) (s : AdapterState) (f : String) :
    (getScriptSnapshot host s f).2.lastProjectVersion = s.lastProjectVersion ∧
    (getScriptSnapshot host s f).2.tsProjectVersion = s.tsProjectVersion := by
  have hv := getScriptVersion_fields host s f
  simp only [getScriptSnapshot]
  split
  · exact ⟨hv.2.1, hv.2.2.1⟩
  · split
    · exact ⟨hv.2.1, hv.2.2.1⟩
    · split
      · exact ⟨hv.2.1, hv.2.2.1⟩
      · exact ⟨hv.2.1, hv.2.2.1⟩

theorem alist_mem_unique {α : Type} (l : List (String × α)) (k : String)
    (a b : α) (hn : alistKeysNodup l) (ha : (k, a) ∈ l) (hb : (k, b) ∈ l) :
    a = b := by
  have h1 := alistGet_of_mem_nodup l k a hn ha
  have h2 := alistGet_of_mem_nodup l k b hn hb
  rw [h1] at h2
  injection h2

theorem mem_hostVisibleNames
    (reg : List (String × EmbeddedFile × LanguageModule)) (n : String) :
    n ∈ hostVisibleNames reg ↔
      ∃ k sf m, (k, sf, m) ∈ reg ∧ ∃ e, e ∈ forEachEmbeddeds sf ∧
        e.kind = EmbeddedFileKind.TypeScriptHostFile ∧ e.fileName = n := by
  induction reg with
  | nil => simp [hostVisibleNames]
  | cons p rest ih =>
    obtain ⟨k, sf, m⟩ := p
    simp only [hostVisibleNames, List.mem_append, ih, List.mem_filterMap]
    constructor
    · rintro (⟨e, he, hfm⟩ | ⟨k2, sf2, m2, hm, e, he, hk, hn⟩)
      · split at hfm
        · rename_i hkind
          injection hfm with hfm
          exact ⟨k, sf, m, List.mem_cons_self _ _, e, he, hkind, hfm⟩
        · cases hfm
      · exact ⟨k2, sf2, m2, List.mem_cons_of_mem _ hm, e, he, hk, hn⟩
    · rintro ⟨k2, sf2, m2, hm, e, he, hk, hn⟩
      rcases List.mem_cons.mp hm with hh | hh
      · left
        have hsf : sf2 = sf := congrArg (fun x => x.2.1) hh
        refine ⟨e, hsf ▸ he, ?_⟩
        rw [if_pos hk, hn]
      · right
        exact ⟨k2, sf2, m2, hh, e, he, hk, hn⟩

theorem mem_getScriptFileNames (host : Host)
    (reg : List (String × EmbeddedFile × LanguageModule)) (n : String) :
    n ∈ getScriptFileNames host reg ↔
      (n ∈ hostVisibleNames reg ∨
        (n ∈ host.scriptFileNames ∧ registryHas reg n = false)) := by
  simp only [getScriptFileNames, mem_jsSetOf, List.mem_append, List.mem_filter,
    Bool.not_eq_true']

theorem getScriptFileNames_nodup (host : Host)
    (reg : List (String × EmbeddedFile × LanguageModule)) :
    (getScriptFileNames host reg).Nodup :=
  nodup_jsSetOf _

theorem registryHas_true_of_mem
    (reg : List (String × EmbeddedFile × LanguageModule))
    (k : String) (sf : EmbeddedFile) (m : LanguageModule)
    (hmem : (k, sf, m) ∈ reg) (hk : k = normalizePath sf.fileName) :
    registryHas reg sf.fileName = true := by
  unfold registryHas
  cases hget : alistGet reg (normalizePath sf.fileName) with
  | some v => rfl
  | none =>
    rw [alistGet_eq_none_iff] at hget
    exact absurd (List.mem_map.mpr ⟨(k, sf, m), hmem, hk⟩) hget

theorem indexEmbeddeds_get_none (sf : EmbeddedFile) (es : List EmbeddedFile)
    (acc : List (String × EmbeddedFile × EmbeddedFile)) (q : String)
    (hacc : alistGet acc q = none)
    (h : ∀ e ∈ es, normalizePath e.fileName ≠ q) :
    alistGet (indexEmbeddeds sf es acc) q = none := by
  induction es generalizing acc with
  | nil => exact hacc
  | cons e rest ih =>
    simp only [indexEmbeddeds]
    refine ih _ ?_ fun e2 he2 => h e2 (List.mem_cons_of_mem _ he2)
    rw [alistGet_set_ne acc (normalizePath e.fileName) q _
      (Ne.symm (h e (List.mem_cons_self _ _)))]
    exact hacc

theorem sourceMapsByFileName_get_none
    (reg : List (String × EmbeddedFile × LanguageModule))
    (acc : List (String × EmbeddedFile × EmbeddedFile)) (q : String)
    (hacc : alistGet acc q = none)
    (h : ∀ k sf m, (k, sf, m) ∈ reg → ∀ e ∈ forEachEmbeddeds sf,
      normalizePath e.fileName ≠ q) :
    alistGet (sourceMapsByFileName reg acc) q = none := by
  induction reg generalizing acc with
  | nil => exact hacc
  | cons p rest ih =>
    obtain ⟨k, sf, m⟩ := p
    simp only [sourceMapsByFileName]
    refine ih _ ?_ fun k2 sf2 m2 hm2 => h k2 sf2 m2 (List.mem_cons_of_mem _ hm2)
    exact indexEmbeddeds_get_none _ _ _ _ hacc
      (h k sf m (List.mem_cons_self _ _))

theorem fromEmbeddedFileName_none
    (reg : List (String × EmbeddedFile × LanguageModule)) (n : String)
    (h : ∀ k sf m, (k, sf, m) ∈ reg → ∀ e ∈ forEachEmbeddeds sf,
      normalizePath e.fileName ≠ normalizePath n) :
    fromEmbeddedFileName reg n = none := by
  unfold fromEmbeddedFileName
  exact sourceMapsByFileName_get_none reg [] (normalizePath n) rfl h


theorem pairGet_some_mem (l : List ((Nat × Nat) × Nat)) (q : Nat × Nat)
    (t : Nat) (h : pairGet l q = some t) : (q, t) ∈ l := by
  induction l with
  | nil => cases h
  | cons e rest ih =>
    obtain ⟨k, v⟩ := e
    simp only [pairGet] at h
    split at h
    · rename_i hk
      injection h with h
      subst hk
      subst h
      exact List.mem_cons_self _ _
    · exact List.mem_cons_of_mem _ (ih h)

/-! ## The claims -/

/-- C10: creating the adapter reverses the caller-supplied language-module
array in place (`languageModules.reverse()` mutates and returns the same
array), so after construction the array holds the same modules in reversed
order, and both the reconciliation add step and the opportunistic existence
check try the modules in the reverse of the order the caller supplied: with
`[modXA, modXB]` supplied and both modules claiming `x.w`, the recorded owner
is the document produced by `modXB` (text "B"), whether discovery happens via
`update` or via `fileExists`. -/
theorem C10_constructor_reverses_modules :
    (∀ supplied : List LanguageModule,
      constructedModules supplied = supplied.reverse) ∧
    constructedModules [modXA, modXB] = [modXB, modXA] ∧
    (alistGet c3After.registry "x.w").map (fun p => p.1.text) = some "B" ∧
    Except.map Prod.fst (fileExistsQuery host3 (constructedModules [modXA, modXB])
      initialState "x.w.ts") = .ok true ∧
    (alistGet c10After.registry "x.w").map (fun p => p.1.text) = some "B" :=
  ⟨fun _ => rfl, rfl, rfl, rfl, rfl⟩

/-- C3 counterexample: the claim says the modules are tried in the order they
were supplied at construction, so with supplied order `[modXA, modXB]` (both
claiming `x.w`, producing documents with texts "A" and "B" respectively) the
owner would be `modXA`'s document. On the code the registered document is
`modXB`'s (text "B"), because the constructor reversed the array before the
trial loop ran. -/
theorem C3_counterexample :
    modXA.createSourceFile "x.w" "sx" = .ok (some docXA) ∧
    docXA.text = "A" ∧
    (update host3 (constructedModules [modXA, modXB]) initialState).map
      (fun st => (alistGet st.registry "x.w").map (fun p => p.1.text)) =
      .ok (some "B") ∧
    "B" ≠ "A" :=
  ⟨rfl, rfl, rfl, by decide⟩

/-- C3 amended: during reconciliation the create-from-snapshot operations are
attempted in the REVERSE of the order the modules were supplied at
construction (the constructor reverses the supplied list in place); within
that iteration order the first module that produces a document wins and no
later module is consulted (the result does not depend on the tail of the
list), and a module that returns no document passes the trial to the next. -/
theorem C3_first_match_wins_reverse_order (supplied : List LanguageModule)
    (m : LanguageModule) (rest : List LanguageModule) (f snap : String)
    (d : EmbeddedFile) :
    constructedModules supplied = supplied.reverse ∧
    (m.createSourceFile f snap = .ok (some d) →
      ∀ later : List LanguageModule,
        tryModules (m :: later) f snap = .ok (some (d, m))) ∧
    (m.createSourceFile f snap = .ok none →
      tryModules (m :: rest) f snap = tryModules rest f snap) := by
  refine ⟨rfl, ?_, ?_⟩
  · intro h later
    simp only [tryModules, h]
  · intro h
    simp only [tryModules, h]

theorem C3_first_match_wins_reverse_order_witness :
    tryModules [modXB, modXA] "x.w" "sx" = .ok (some (docXB, modXB)) ∧
    tryModules [modDecline, modXB] "x.w" "sx" = tryModules [modXB] "x.w" "sx" :=
  ⟨(C3_first_match_wins_reverse_order [modXA, modXB] modXB [modXA] "x.w" "sx"
      docXB).2.1 rfl [modXA],
    (C3_first_match_wins_reverse_order [modXA, modXB] modDecline [modXB] "x.w"
      "sx" docXB).2.2 rfl⟩

/-- C5: for the same (document identity, table identity) pair the mapping
cache returns the identical memoized translator as long as the document is
not invalidated, for range tables and teleport tables alike; and once the
document is invalidated (`onSourceFileUpdated`, as called after an in-place
re-parse), a fresh request never returns the previously cached translator. -/
theorem C5_mapping_cache_identity (c : MappingCache) (file table : Nat)
    (hwf : c.wf) :
    (∀ t c1, c.getSourceMap file table = (t, c1) →
      c1.getSourceMap file table = (t, c1)) ∧
    (∀ t c1, c.getTeleport file table = (t, c1) →
      c1.getTeleport file table = (t, c1)) ∧
    (∀ t c1 t2 c2, c.getSourceMap file table = (t, c1) →
      (c1.onSourceFileUpdated file).getSourceMap file table = (t2, c2) →
      t2 ≠ t) ∧
    (∀ t c1 t2 c2, c.getTeleport file table = (t, c1) →
      (c1.onSourceFileUpdated file).getTeleport file table = (t2, c2) →
      t2 ≠ t) := by
  have hfilter : ∀ (l : List ((Nat × Nat) × Nat)),
      pairGet (l.filter fun e => decide (e.1.1 ≠ file)) (file, table) = none := by
    intro l
    induction l with
    | nil => rfl
    | cons e rest ih =>
      obtain ⟨⟨f1, t1⟩, tr⟩ := e
      by_cases h : f1 = file
      · subst h
        simp only [List.filter_cons]
        rw [if_neg (by simp)]
        exact ih
      · simp only [List.filter_cons]
        rw [if_pos (by simp [h]), pairGet, if_neg (by simp [h])]
        exact ih
  refine ⟨?_, ?_, ?_, ?_⟩
  · intro t c1 h
    simp only [MappingCache.getSourceMap] at h ⊢
    split at h
    · rename_i t0 hpg
      injection h with h1 h2
      subst h1
      subst h2
      simp only [hpg]
    · injection h with h1 h2
      subst h1
      subst h2
      simp [pairGet]
  · intro t c1 h
    simp only [MappingCache.getTeleport] at h ⊢
    split at h
    · rename_i t0 hpg
      injection h with h1 h2
      subst h1
      subst h2
      simp only [hpg]
    · injection h with h1 h2
      subst h1
      subst h2
      simp [pairGet]
  · intro t c1 t2 c2 h h2
    have ht : t < c1.nextId := by
      simp only [MappingCache.getSourceMap] at h
      split at h
      · rename_i t0 hpg
        injection h with h1 hcc
        subst h1
        subst hcc
        exact hwf.1 _ (pairGet_some_mem _ _ _ hpg)
      · injection h with h1 hcc
        subst h1
        subst hcc
        exact Nat.lt_succ_self _
    simp only [MappingCache.getSourceMap, MappingCache.onSourceFileUpdated,
      hfilter] at h2
    injection h2 with h2a h2b
    subst h2a
    intro hcontra
    subst hcontra
    exact Nat.lt_irrefl _ ht
  · intro t c1 t2 c2 h h2
    have ht : t < c1.nextId := by
      simp only [MappingCache.getTeleport] at h
      split at h
      · rename_i t0 hpg
        injection h with h1 hcc
        subst h1
        subst hcc
        exact hwf.2 _ (pairGet_some_mem _ _ _ hpg)
      · injection h with h1 hcc
        subst h1
        subst hcc
        exact Nat.lt_succ_self _
    simp only [MappingCache.getTeleport, MappingCache.onSourceFileUpdated,
      hfilter] at h2
    injection h2 with h2a h2b
    subst h2a
    intro hcontra
    subst hcontra
    exact Nat.lt_irrefl _ ht


theorem C5_mapping_cache_identity_witness :
    c5c1.getSourceMap 0 1 = (c5t1, c5c1) ∧
    c5pair2.1 ≠ c5t1 ∧
    c5d1.getTeleport 0 1 = (c5u1, c5d1) ∧
    c5pair2t.1 ≠ c5u1 := by
  have hwf : MappingCache.empty.wf :=
    ⟨fun e he => absurd he (List.not_mem_nil e),
      fun e he => absurd he (List.not_mem_nil e)⟩
  have h := C5_mapping_cache_identity MappingCache.empty 0 1 hwf
  exact ⟨h.1 c5t1 c5c1 rfl,
    h.2.2.1 c5t1 c5c1 c5pair2.1 c5pair2.2 rfl rfl,
    h.2.1 c5u1 c5d1 rfl,
    h.2.2.2 c5u1 c5d1 c5pair2t.1 c5pair2t.2 rfl rfl⟩

/-- C6: across every sequence of reconcile passes the project-version counter
never decreases — each pass leaves it unchanged or increases it by exactly
one tick — so it never repeats a value after having advanced. -/
theorem C6_project_version_monotonic :
    (∀ (host : Host) (mods : List LanguageModule) (s s' : AdapterState),
      update host mods s = .ok s' →
      s'.tsProjectVersion = s.tsProjectVersion ∨
      s'.tsProjectVersion = s.tsProjectVersion + 1) ∧
    (∀ (mods : List LanguageModule) (hosts : List Host) (s s' : AdapterState),
      runUpdates mods hosts s = .ok s' →
      s.tsProjectVersion ≤ s'.tsProjectVersion) := by
  have hstep : ∀ (host : Host) (mods : List LanguageModule) (s s' : AdapterState),
      update host mods s = .ok s' →
      s'.tsProjectVersion = s.tsProjectVersion ∨
      s'.tsProjectVersion = s.tsProjectVersion + 1 := by
    intro host mods s s' h
    rw [update_eq] at h
    split at h
    · simp only [updateCore] at h
      split at h
      · cases h
      · injection h with h
        subst h
        dsimp only
        split
        · right; rfl
        · left; rfl
    · injection h with h
      subst h
      left
      rfl
  refine ⟨hstep, ?_⟩
  intro mods hosts
  induction hosts with
  | nil =>
    intro s s' h
    injection h with h
    subst h
    exact Nat.le_refl _
  | cons hh hs ih =>
    intro s s' h
    simp only [runUpdates] at h
    split at h
    · cases h
    · rename_i s1 heq
      have h1 : s.tsProjectVersion ≤ s1.tsProjectVersion := by
        rcases hstep hh mods s s1 heq with h2 | h2 <;> omega
      exact Nat.le_trans h1 (ih s1 s' h)

theorem C6_project_version_monotonic_witness :
    (c6After.tsProjectVersion = initialState.tsProjectVersion ∨
      c6After.tsProjectVersion = initialState.tsProjectVersion + 1) ∧
    initialState.tsProjectVersion ≤ c6After.tsProjectVersion :=
  ⟨C6_project_version_monotonic.1 hostNone [] initialState c6After rfl,
    C6_project_version_monotonic.2 [] [hostNone] initialState c6After rfl⟩

/-- C2 counterexample: with a host that exposes no project version, the
second identical file-name query returns the byte-identical result but
advances the project-version counter from 1 to 2 — the claim's "this holds
... when it does not [expose a project version]" fails on the code, which
marks the surface dirty on every pass in which no composite document
changed. -/
theorem C2_counterexample :
    surfaceGetScriptFileNames hostNone [] initialState = .ok ([], c2NoneS1) ∧
    c2NoneS1.tsProjectVersion = 1 ∧
    (surfaceGetScriptFileNames hostNone [] c2NoneS1).map
      (fun p => (p.1, p.2.tsProjectVersion)) = .ok ([], 2) :=
  ⟨rfl, rfl, rfl⟩

/-- C2 amended: when the host exposes a project version, calling any query of
the synthesized surface twice with no intervening host change returns the
identical result and leaves the whole adapter state — in particular the
project-version counter — unchanged on the second call. (When the host
exposes no project version, the pass runs unconditionally and the counter
advances on every call.) -/
theorem C2_surface_idempotent_with_project_version (host : Host)
    (mods : List LanguageModule) (s : AdapterState) (v : String) (f : String)
    (hv : host.projectVersion = some v) :
    (∀ r1 s1, surfaceGetScriptFileNames host mods s = .ok (r1, s1) →
      surfaceGetScriptFileNames host mods s1 = .ok (r1, s1)) ∧
    (∀ r1 s1, surfaceGetScriptVersion host mods s f = .ok (r1, s1) →
      surfaceGetScriptVersion host mods s1 f = .ok (r1, s1)) ∧
    (∀ r1 s1, surfaceGetScriptSnapshot host mods s f = .ok (r1, s1) →
      surfaceGetScriptSnapshot host mods s1 f = .ok (r1, s1)) := by
  refine ⟨?_, ?_, ?_⟩
  · intro r1 s1 h
    simp only [surfaceGetScriptFileNames] at h ⊢
    split at h
    · cases h
    · rename_i s2 heq
      injection h with h
      have h1 : getScriptFileNames host s2.registry = r1 := congrArg Prod.fst h
      have h2 : s2 = s1 := congrArg Prod.snd h
      subst h2
      subst h1
      rw [update_noop host mods s2 v hv
        ((update_lastProjectVersion host mods s s2 heq).trans hv)]
  · intro r1 s1 h
    simp only [surfaceGetScriptVersion] at h ⊢
    split at h
    · cases h
    · rename_i s2 heq
      injection h with h
      have hs1 : (getScriptVersion host s2 f).2 = s1 := congrArg Prod.snd h
      have hl : s1.lastProjectVersion = some v := by
        rw [← hs1, (getScriptVersion_fields host s2 f).2.1]
        exact (update_lastProjectVersion host mods s s2 heq).trans hv
      rw [update_noop host mods s1 v hv hl]
      exact congrArg Except.ok (getScriptVersion_stable host s2 f r1 s1 h)
  · intro r1 s1 h
    simp only [surfaceGetScriptSnapshot] at h ⊢
    split at h
    · cases h
    · rename_i s2 heq
      injection h with h
      have hs1 : (getScriptSnapshot host s2 f).2 = s1 := congrArg Prod.snd h
      have hl : s1.lastProjectVersion = some v := by
        rw [← hs1, (getScriptSnapshot_fields host s2 f).1]
        exact (update_lastProjectVersion host mods s s2 heq).trans hv
      rw [update_noop host mods s1 v hv hl]
      exact congrArg Except.ok (getScriptSnapshot_stable host s2 f r1 s1 h)

theorem C2_surface_idempotent_with_project_version_witness :
    surfaceGetScriptFileNames host2 [] c2s1 = .ok ([], c2s1) ∧
    c2s1.tsProjectVersion = 1 :=
  ⟨(C2_surface_idempotent_with_project_version host2 [] initialState "p" "x"
      rfl).1 [] c2s1 rfl, rfl⟩


/-- C4 counterexample: a language module that throws during
create-from-snapshot is NOT treated as declining the file. With
`[modThrow, modAny]` the next module — which claims every file — is never
consulted: the trial, and the whole reconciliation pass entered through the
surface, end in the propagated exception. -/
theorem C4_counterexample :
    modAny.createSourceFile "b.txt" "tb" =
      .ok (some (.mk "b.txt" "D" .TextFile [])) ∧
    tryModules [modThrow, modAny] "b.txt" "tb" = .error () ∧
    update host4 [modThrow, modAny] initialState = .error () :=
  ⟨rfl, rfl, rfl⟩

/-- C4 amended: a language module that returns no document during
create-from-snapshot is treated as declining the file — the adapter tries the
next module and, if every module declines, the file is treated as a plain
native file (it appears exactly once in enumeration and defers to the host
for version and for content) — but a module that THROWS propagates its
exception out of the trial and out of the reconciliation pass (there is no
catch). -/
theorem C4_decline_nonfatal_throw_escapes (host : Host)
    (mods : List LanguageModule) (s : AdapterState)
    (m : LanguageModule) (rest : List LanguageModule) (f snap : String)
    (e : Unit) :
    (m.createSourceFile f snap = .ok none →
      tryModules (m :: rest) f snap = tryModules rest f snap) ∧
    (m.createSourceFile f snap = .error e →
      tryModules (m :: rest) f snap = .error e) ∧
    ((∀ m2 ∈ mods, ∀ g snap2, normalizePath g = normalizePath f →
        m2.createSourceFile g snap2 = Except.ok none) →
      registryHas s.registry f = false →
      ∀ s', update host mods s = .ok s' →
        registryHas s'.registry f = false ∧
        (f ∈ host.scriptFileNames →
          (getScriptFileNames host s'.registry).count f = 1) ∧
        (fromEmbeddedFileName s'.registry f = none →
          getScriptVersion host s' f = (host.scriptVersion f, s')) ∧
        (fromEmbeddedFileName s'.registry f = none →
          alistGet s'.scriptSnapshots (toLowerStr f) = none →
          (getScriptSnapshot host s' f).1 = host.scriptSnapshot f)) := by
  refine ⟨?_, ?_, ?_⟩
  · intro h
    simp only [tryModules, h]
  · intro h
    simp only [tryModules, h]
  · intro hdecl hnotreg s' hOk
    have hcount : ∀ reg : List (String × EmbeddedFile × LanguageModule),
        registryHas reg f = false → f ∈ host.scriptFileNames →
        (getScriptFileNames host reg).count f = 1 := by
      intro reg hr hf
      refine List.count_eq_one_of_mem (getScriptFileNames_nodup host reg) ?_
      exact (mem_getScriptFileNames host reg f).mpr (Or.inr ⟨hf, hr⟩)
    have hdefer : ∀ st : AdapterState, fromEmbeddedFileName st.registry f = none →
        getScriptVersion host st f = (host.scriptVersion f, st) := by
      intro st he
      simp only [getScriptVersion, he]
    have hdeferSnap : ∀ st : AdapterState,
        fromEmbeddedFileName st.registry f = none →
        alistGet st.scriptSnapshots (toLowerStr f) = none →
        (getScriptSnapshot host st f).1 = host.scriptSnapshot f := by
      intro st he hc
      simp only [getScriptSnapshot, getScriptVersion, he, hc]
      cases hs : host.scriptSnapshot f with
      | some t => simp [hs]
      | none => simp [hs]
    have hnone : alistGet s.registry (normalizePath f) = none := by
      unfold registryHas at hnotreg
      cases hg : alistGet s.registry (normalizePath f) with
      | none => rfl
      | some x => rw [hg] at hnotreg; cases hnotreg
    have htry : ∀ g snap2, normalizePath g = normalizePath f →
        host.scriptSnapshot g = some snap2 →
        tryModules mods g snap2 = .ok none := fun g snap2 hg _ =>
      tryModules_none mods g snap2 fun m2 hm2 => hdecl m2 hm2 g snap2 hg
    rw [update_eq] at hOk
    split at hOk
    · simp only [updateCore] at hOk
      split at hOk
      · cases hOk
      · rename_i a heq
        injection hOk with hOk
        subst hOk
        have hv0 : alistGet
            (vueScan host s.registry s.registry s.sourceVueFileVersions
              (jsSetOf host.scriptFileNames) [] false).registry
            (normalizePath f) = none :=
          vueScan_registry_none host s.registry s.registry _ _ _ _ _ hnone
        have ha : alistGet a.registry (normalizePath f) = none :=
          addScan_registry_none host mods _ _ _ _ (normalizePath f) hv0
            (fun f2 _ hk2 snap2 hs2 => htry f2 snap2 hk2 hs2) a heq
        have hqk : ∀ item ∈ (vueScan host s.registry s.registry
            s.sourceVueFileVersions (jsSetOf host.scriptFileNames) []
            false).queue, item.key ≠ normalizePath f := by
          intro item hitem hcontra
          rcases vueScan_queue_src host s.registry s.registry _ _ _ _ item
            hitem with hq | ⟨hm, _⟩
          · exact absurd hq (List.not_mem_nil _)
          · rw [hcontra] at hm
            exact (alistGet_eq_none_iff _ _).mp hnone
              (List.mem_map.mpr ⟨_, hm, rfl⟩)
        have hfinal : alistGet
            (reparse (vueScan host s.registry s.registry s.sourceVueFileVersions
                (jsSetOf host.scriptFileNames) [] false).queue a.registry
              s.virtualFileVersions
              (tsAddScan host a.remains
                (tsScan host s.sourceTsFileVersions s.sourceTsFileVersions
                  a.remains ((vueScan host s.registry s.registry
                    s.sourceVueFileVersions (jsSetOf host.scriptFileNames) []
                    false).dirty || (vueScan host s.registry s.registry
                    s.sourceVueFileVersions (jsSetOf host.scriptFileNames) []
                    false).queue.isEmpty)).1
                (tsScan host s.sourceTsFileVersions s.sourceTsFileVersions
                  a.remains ((vueScan host s.registry s.registry
                    s.sourceVueFileVersions (jsSetOf host.scriptFileNames) []
                    false).dirty || (vueScan host s.registry s.registry
                    s.sourceVueFileVersions (jsSetOf host.scriptFileNames) []
                    false).queue.isEmpty)).2).2).registry
            (normalizePath f) = none :=
          reparse_registry_none _ _ _ _ _ ha hqk
        have hhas : registryHas (reparse (vueScan host s.registry s.registry
            s.sourceVueFileVersions (jsSetOf host.scriptFileNames) [] false).queue
            a.registry s.virtualFileVersions
            (tsAddScan host a.remains
              (tsScan host s.sourceTsFileVersions s.sourceTsFileVersions
                a.remains ((vueScan host s.registry s.registry
                  s.sourceVueFileVersions (jsSetOf host.scriptFileNames) []
                  false).dirty || (vueScan host s.registry s.registry
                  s.sourceVueFileVersions (jsSetOf host.scriptFileNames) []
                  false).queue.isEmpty)).1
              (tsScan host s.sourceTsFileVersions s.sourceTsFileVersions
                a.remains ((vueScan host s.registry s.registry
                  s.sourceVueFileVersions (jsSetOf host.scriptFileNames) []
                  false).dirty || (vueScan host s.registry s.registry
                  s.sourceVueFileVersions (jsSetOf host.scriptFileNames) []
                  false).queue.isEmpty)).2).2).registry f = false := by
          unfold registryHas
          rw [hfinal]
          rfl
        exact ⟨hhas, hcount _ hhas, hdefer _, hdeferSnap _⟩
    · injection hOk with hOk
      subst hOk
      exact ⟨hnotreg, hcount _ hnotreg, hdefer _, hdeferSnap _⟩

theorem C4_decline_nonfatal_throw_escapes_witness :
    tryModules [modDecline] "b.txt" "tb" = tryModules [] "b.txt" "tb" ∧
    tryModules [modThrow] "q.txt" "z" = .error () ∧
    registryHas c4After.registry "b.txt" = false ∧
    (getScriptFileNames host4 c4After.registry).count "b.txt" = 1 ∧
    getScriptVersion host4 c4After "b.txt" =
      (host4.scriptVersion "b.txt", c4After) ∧
    (getScriptSnapshot host4 c4After "b.txt").1 =
      host4.scriptSnapshot "b.txt" := by
  have hdecl : ∀ m2 ∈ [modDecline, modDecline], ∀ g snap2,
      normalizePath g = normalizePath "b.txt" →
      m2.createSourceFile g snap2 = Except.ok none := by
    intro m2 hm2 g snap2 _
    rcases List.mem_cons.mp hm2 with rfl | hm2
    · rfl
    · rcases List.mem_singleton.mp hm2 with rfl
      rfl
  have h := (C4_decline_nonfatal_throw_escapes host4 [modDecline, modDecline]
    initialState modDecline [] "b.txt" "tb" ()).2.2 hdecl rfl c4After rfl
  refine ⟨(C4_decline_nonfatal_throw_escapes host4 [modDecline, modDecline]
      initialState modDecline [] "b.txt" "tb" ()).1 rfl,
    (C4_decline_nonfatal_throw_escapes host4 [modDecline, modDecline]
      initialState modThrow [] "q.txt" "z" ()).2.1 rfl,
    h.1, h.2.1 (by simp [host4]), h.2.2.1 rfl, h.2.2.2 rfl rfl⟩


/-- C9: an identity that resolves to an embedded file reports a
content-addressed version — the hash of the embedded file's current text —
memoized so repeated queries return the same string; queueing the owning
document for re-parse deletes every memoized version of that document's
embedded files (none survives the pass); every other identity reports
exactly the host's version. (`hashOf` is `ts.sys?.createHash?.(text) ?? text`;
under `isTsc` the code prefixes the owning document's host version, which is
why the hash-shape conjunct assumes `isTsc = false`.) -/
theorem C9_content_addressed_versions (host : Host) (mods : List LanguageModule)
    (s : AdapterState) (f : String) :
    (∀ sf emb, fromEmbeddedFileName s.registry f = some (sf, emb) →
      alistGet s.virtualFileVersions emb.fileName = none →
      host.isTsc = false →
      getScriptVersion host s f = (hashOf host emb.text,
        { s with virtualFileVersions :=
            alistSet s.virtualFileVersions emb.fileName (hashOf host emb.text) })) ∧
    (∀ r s1, getScriptVersion host s f = (r, s1) →
      getScriptVersion host s1 f = (r, s1)) ∧
    (fromEmbeddedFileName s.registry f = none →
      getScriptVersion host s f = (host.scriptVersion f, s)) ∧
    (∀ item ∈ (updateVueScan host s).queue, shouldUpdateB host s = true →
      ∀ s', update host mods s = .ok s' →
      ∀ e ∈ forEachEmbeddeds item.sf,
        alistGet s'.virtualFileVersions e.fileName = none) := by
  refine ⟨?_, ?_, ?_, ?_⟩
  · intro sf emb hemb hmemo htsc
    simp only [getScriptVersion, hemb, hmemo, htsc,
      if_neg (show ¬ (false = true) by simp)]
  · intro r s1 h
    exact getScriptVersion_stable host s f r s1 h
  · intro hemb
    simp only [getScriptVersion, hemb]
  · intro item hitem hrun s' hOk
    rw [update_eq, if_pos hrun] at hOk
    simp only [updateCore] at hOk
    split at hOk
    · cases hOk
    · rename_i a heq
      injection hOk with hOk
      subst hOk
      intro e he
      exact reparse_vv_item _ _ _ _ item e hitem he

theorem C9_content_addressed_versions_witness :
    getScriptVersion host9 s1 "a.widget.ts" =
      (hashOf host9 embA.text,
        { s1 with virtualFileVersions :=
            (alistSet s1.virtualFileVersions embA.fileName
              (hashOf host9 embA.text)) }) ∧
    getScriptVersion host9 s1 "plain.ts" =
      (host9.scriptVersion "plain.ts", s1) ∧
    alistGet c9After.virtualFileVersions embA.fileName = none := by
  have h := C9_content_addressed_versions host9 [modA] s1 "a.widget.ts"
  have h2 := C9_content_addressed_versions host9 [modA] s1 "plain.ts"
  refine ⟨h.1 docA embA rfl rfl rfl, h2.2.2.1 rfl, ?_⟩
  have hq : (⟨"a.widget", docA, modA, "srcA2"⟩ : QueueItem) ∈
      (updateVueScan host9 s1).queue := List.mem_singleton_self _
  have hd := h.2.2.2 ⟨"a.widget", docA, modA, "srcA2"⟩ hq rfl c9After rfl
  exact hd embA (by simp [docA, embA, forEachEmbeddeds, forEachEmbeddedsList])

/-- C7: after reconciliation the enumerated file-name list is exactly the
union of the host-visible embedded file identities of every registered
document's tree and the host-reported files that are not registered composite
documents; the list has no duplicates; and — provided the registered trees
are well formed, i.e. no host-visible embedded file bears a registered
composite document's identity and each registry key is its document's
normalized identity — a composite document's own identity never appears. -/
theorem C7_enumeration_content (host : Host)
    (reg : List (String × EmbeddedFile × LanguageModule)) (n : String)
    (hK : ∀ k sf m, (k, sf, m) ∈ reg → k = normalizePath sf.fileName)
    (hW : ∀ k sf m, (k, sf, m) ∈ reg → ∀ e ∈ forEachEmbeddeds sf,
      e.kind = EmbeddedFileKind.TypeScriptHostFile →
      registryHas reg e.fileName = false) :
    (n ∈ getScriptFileNames host reg ↔
      ((∃ k sf m, (k, sf, m) ∈ reg ∧ ∃ e, e ∈ forEachEmbeddeds sf ∧
        e.kind = EmbeddedFileKind.TypeScriptHostFile ∧ e.fileName = n) ∨
       (n ∈ host.scriptFileNames ∧ registryHas reg n = false))) ∧
    (getScriptFileNames host reg).Nodup ∧
    (∀ k sf m, (k, sf, m) ∈ reg → sf.fileName ∉ getScriptFileNames host reg) := by
  refine ⟨?_, getScriptFileNames_nodup host reg, ?_⟩
  · rw [mem_getScriptFileNames, mem_hostVisibleNames]
  · intro k sf m hmem hcontra
    have hhas : registryHas reg sf.fileName = true :=
      registryHas_true_of_mem reg k sf m hmem (hK k sf m hmem)
    rcases (mem_getScriptFileNames host reg sf.fileName).mp hcontra with
      hcase | ⟨_, hfalse⟩
    · rcases (mem_hostVisibleNames reg sf.fileName).mp hcase with
        ⟨k2, sf2, m2, hm2, e2, he2, hkind, hname⟩
      have hW2 := hW k2 sf2 m2 hm2 e2 he2 hkind
      rw [hname, hhas] at hW2
      cases hW2
    · rw [hhas] at hfalse
      cases hfalse

theorem C7_enumeration_content_witness :
    "a.widget.ts" ∈ getScriptFileNames host1 s1.registry ∧
    (getScriptFileNames host1 s1.registry).Nodup ∧
    docA.fileName ∉ getScriptFileNames host1 s1.registry := by
  have hK : ∀ k sf m, (k, sf, m) ∈ s1.registry →
      k = normalizePath sf.fileName := by
    intro k sf m hm
    have heq := List.mem_singleton.mp hm
    have h1 : k = "a.widget" := congrArg Prod.fst heq
    have h2 : sf = docA := congrArg (fun x => x.2.1) heq
    subst h1
    subst h2
    rfl
  have hW : ∀ k sf m, (k, sf, m) ∈ s1.registry →
      ∀ e ∈ forEachEmbeddeds sf,
      e.kind = EmbeddedFileKind.TypeScriptHostFile →
      registryHas s1.registry e.fileName = false := by
    intro k sf m hm e he hkind
    have heq := List.mem_singleton.mp hm
    have h2 : sf = docA := congrArg (fun x => x.2.1) heq
    subst h2
    simp only [docA, embA, forEachEmbeddeds, forEachEmbeddedsList,
      List.append_nil, List.mem_cons, List.mem_singleton] at he
    rcases he with rfl | rfl | hnil
    · cases hkind
    · rfl
    · cases hnil
  have h := C7_enumeration_content host1 s1.registry "a.widget.ts" hK hW
  refine ⟨?_, h.2.1, h.2.2 "a.widget" docA modA (List.mem_singleton_self _)⟩
  refine h.1.mpr (Or.inl ⟨"a.widget", docA, modA, List.mem_singleton_self _,
    embA, ?_, rfl, rfl⟩)
  simp [docA, embA, forEachEmbeddeds, forEachEmbeddedsList]


/-- C8: if during a pass the host can no longer produce a snapshot for a
registered composite document's identity (under any spelling of it), then
after the pass the document is gone from the registry, the pass marked the
surface dirty (the counter advanced by one tick), and — as long as no other
registered document's tree and no host-reported file carries one of its
virtual-file identities — none of those identities resolves via the
virtual-file index or appears in the file-name enumeration. -/
theorem C8_deletion_on_missing_snapshot (host : Host)
    (mods : List LanguageModule) (s : AdapterState) (fn : String)
    (sf : EmbeddedFile) (m : LanguageModule)
    (hKeys : alistKeysNodup s.registry)
    (hGet : alistGet s.registry (normalizePath fn) = some (sf, m))
    (hKey : normalizePath sf.fileName = normalizePath fn)
    (hGone : ∀ g, normalizePath g = normalizePath fn →
      host.scriptSnapshot g = none)
    (hRun : shouldUpdateB host s = true) :
    ∀ s', update host mods s = .ok s' →
      alistGet s'.registry (normalizePath fn) = none ∧
      s'.tsProjectVersion = s.tsProjectVersion + 1 ∧
      (∀ e ∈ forEachEmbeddeds sf,
        (∀ k2 sf2 m2, (k2, sf2, m2) ∈ s'.registry →
          ∀ e2 ∈ forEachEmbeddeds sf2,
            normalizePath e2.fileName ≠ normalizePath e.fileName) →
        (∀ g ∈ host.scriptFileNames,
          normalizePath g ≠ normalizePath e.fileName) →
        fromEmbeddedFileName s'.registry e.fileName = none ∧
        e.fileName ∉ getScriptFileNames host s'.registry) := by
  intro s' hOk
  have hmem : (normalizePath fn, sf, m) ∈ s.registry :=
    alistGet_some_mem _ _ _ hGet
  have hsnap : host.scriptSnapshot sf.fileName = none := hGone sf.fileName hKey
  rw [update_eq, if_pos hRun] at hOk
  simp only [updateCore] at hOk
  split at hOk
  · cases hOk
  · rename_i a heq
    injection hOk with hOk
    have hv1 : alistGet (vueScan host s.registry s.registry
        s.sourceVueFileVersions (jsSetOf host.scriptFileNames) []
        false).registry (normalizePath fn) = none :=
      vueScan_registry_k_none host s.registry s.registry _ _ _ _
        (normalizePath fn) sf m hmem hsnap hKey
    have ha : alistGet a.registry (normalizePath fn) = none :=
      addScan_registry_none host mods _ _ _ _ (normalizePath fn) hv1
        (fun f2 _ hk2 snap2 hs2 => by rw [hGone f2 hk2] at hs2; cases hs2)
        a heq
    have hqk : ∀ item ∈ (vueScan host s.registry s.registry
        s.sourceVueFileVersions (jsSetOf host.scriptFileNames) []
        false).queue, item.key ≠ normalizePath fn := by
      intro item hitem hcontra
      rcases vueScan_queue_src host s.registry s.registry _ _ _ _ item
        hitem with hq | ⟨hm2, hs2⟩
      · exact absurd hq (List.not_mem_nil _)
      · rw [hcontra] at hm2
        have heqv := alist_mem_unique s.registry (normalizePath fn) _ _
          hKeys hm2 hmem
        have hsf2 : item.sf = sf := congrArg Prod.fst heqv
        rw [hsf2, hsnap] at hs2
        cases hs2
    have hd1 : (vueScan host s.registry s.registry s.sourceVueFileVersions
        (jsSetOf host.scriptFileNames) [] false).dirty = true :=
      vueScan_dirty_of_none host s.registry s.registry _ _ _ _
        (normalizePath fn) sf m hmem hsnap
    rw [← hOk]
    simp only [updateVueScan]
    refine ⟨?_, ?_, ?_⟩
    · exact reparse_registry_none _ _ _ _ _ ha hqk
    · simp [hd1, Bool.true_or, tsScan_dirty_mono, tsAddScan_dirty_mono,
        reparse_dirty_mono]
    · intro e he hside hhost
      constructor
      · exact fromEmbeddedFileName_none _ _ hside
      · intro hcontra
        rcases (mem_getScriptFileNames host _ _).mp hcontra with
          hcase | ⟨hmem2, _⟩
        · rcases (mem_hostVisibleNames _ _).mp hcase with
            ⟨k2, sf2, m2, hm2, e2, he2, _, hname⟩
          exact hside k2 sf2 m2 hm2 e2 he2 (congrArg normalizePath hname)
        · exact hhost e.fileName hmem2 rfl

theorem C8_deletion_on_missing_snapshot_witness :
    alistGet c8After.registry (normalizePath "a.widget") = none ∧
    c8After.tsProjectVersion = s8.tsProjectVersion + 1 ∧
    fromEmbeddedFileName c8After.registry embA.fileName = none ∧
    embA.fileName ∉ getScriptFileNames host8 c8After.registry := by
  have h := C8_deletion_on_missing_snapshot host8 [modA] s8 "a.widget" docA
    modA (by simp [s8, alistKeysNodup]) rfl rfl (fun g _ => rfl) rfl
    c8After rfl
  refine ⟨h.1, h.2.1, ?_, ?_⟩
  all_goals
    have h3 := h.2.2 embA
      (by simp [docA, embA, forEachEmbeddeds, forEachEmbeddedsList])
      (by intro k2 sf2 m2 hm2; exact absurd hm2 (List.not_mem_nil _))
      (by intro g hg; exact absurd hg (List.not_mem_nil _))
  · exact h3.1
  · exact h3.2


/-- C1: suppression of no-op re-parses. In a pass in which every registered
composite document still has a snapshot (none removed), at least one queued
for re-parse because its host-reported version changed, no new composite
document can be claimed by any module, every tracked native file's version is
unchanged and every reported non-composite file is already version-tracked,
and each queued document's re-parse produces a host-visible (truthy-kind)
name-to-text record extensionally equal to the one before, the adapter's
project-version counter is unchanged by the pass. -/
theorem C1_noop_reparse_suppressed (host : Host) (mods : List LanguageModule)
    (s : AdapterState)
    (hRun : shouldUpdateB host s = true)
    (hNoDel : ∀ e ∈ s.registry, host.scriptSnapshot e.2.1.fileName ≠ none)
    (hQueue : (updateVueScan host s).queue.isEmpty = false)
    (hNoAdd : ∀ f ∈ host.scriptFileNames,
      (∀ e ∈ s.registry, e.2.1.fileName ≠ f) →
      ∀ snap, host.scriptSnapshot f = some snap →
      tryModules mods f snap = Except.ok none)
    (hNative : ∀ p ∈ s.sourceTsFileVersions, host.scriptVersion p.1 = p.2)
    (hTracked : ∀ f ∈ host.scriptFileNames,
      (∀ e ∈ s.registry, e.2.1.fileName ≠ f) →
      alistGet s.sourceTsFileVersions f ≠ none)
    (hNoop : ∀ item ∈ (updateVueScan host s).queue, ∀ n,
      alistGet (hostVisibleScripts
        (item.module.updateSourceFile item.sf item.snapshot)) n =
      alistGet (hostVisibleScripts item.sf) n) :
    ∀ s', update host mods s = .ok s' →
      s'.tsProjectVersion = s.tsProjectVersion := by
  intro s' hOk
  simp only [updateVueScan] at hQueue hNoop
  rw [update_eq, if_pos hRun] at hOk
  simp only [updateCore, updateVueScan] at hOk
  set V := vueScan host s.registry s.registry s.sourceVueFileVersions
    (jsSetOf host.scriptFileNames) [] false with hV
  have hvdirty : V.dirty = false := by
    rw [hV]
    exact vueScan_dirty_ok host s.registry s.registry _ _ _ _ hNoDel
  have hRem : ∀ f ∈ V.remains, f ∈ host.scriptFileNames ∧
      ∀ e ∈ s.registry, e.2.1.fileName ≠ f := by
    intro f hf
    rw [hV] at hf
    constructor
    · exact (mem_jsSetOf _ _).mp
        (vueScan_remains_sub host s.registry s.registry _ _ _ _ f hf)
    · intro e he heq2
      obtain ⟨k, sf, m⟩ := e
      rw [← heq2] at hf
      exact vueScan_remains_not_entry host s.registry s.registry _ _ _ _
        k sf m he hf
  have haddeq : addScan host mods V.remains V.registry V.vueVersions V.remains =
      .ok ⟨V.registry, V.vueVersions, V.remains⟩ := by
    refine addScan_id host mods V.remains V.registry V.vueVersions V.remains ?_
    intro f hf snap hsnap
    exact hNoAdd f (hRem f hf).1 (hRem f hf).2 snap hsnap
  have htrack : ∀ f ∈ V.remains, alistGet s.sourceTsFileVersions f ≠ none :=
    fun f hf => hTracked f (hRem f hf).1 (hRem f hf).2
  have hrep : (reparse V.queue V.registry s.virtualFileVersions false).dirty =
      false := by
    refine reparse_noop V.queue V.registry s.virtualFileVersions ?_
    intro item hitem n
    apply hNoop
    rw [hV] at hitem
    exact hitem
  simp only [haddeq] at hOk
  simp only [hvdirty, hQueue, Bool.or_self] at hOk
  simp only [tsScan_id host s.sourceTsFileVersions s.sourceTsFileVersions
    V.remains false hNative] at hOk
  simp only [tsAddScan_id host V.remains s.sourceTsFileVersions false
    htrack] at hOk
  simp only [hrep] at hOk
  injection hOk with hOk
  rw [← hOk]
  rfl

theorem C1_noop_reparse_suppressed_witness :
    c1After.tsProjectVersion = s1.tsProjectVersion := by
  refine C1_noop_reparse_suppressed host1 [modA] s1 rfl ?_ rfl ?_ ?_ ?_ ?_
    c1After rfl
  · intro e he
    have heq := List.mem_singleton.mp he
    subst heq
    simp [host1, docA, EmbeddedFile.fileName]
  · intro f hf hne snap hsnap
    have hf2 := List.mem_singleton.mp hf
    subst hf2
    exact absurd rfl (hne ("a.widget", docA, modA) (List.mem_singleton_self _))
  · intro p hp
    exact absurd hp (List.not_mem_nil _)
  · intro f hf hne
    have hf2 := List.mem_singleton.mp hf
    subst hf2
    exact absurd rfl (hne ("a.widget", docA, modA) (List.mem_singleton_self _))
  · intro item hitem n
    have heq := List.mem_singleton.mp hitem
    subst heq
    rfl

end Volar
